import Mathlib

/-
  Verification of the lofi.nvim music-generation daemon (Rust sources under
  src/daemon/src/) against its natural-language specification.

  Shallow embedding conventions:
  * Rust machine integers (u8/u32/u64/usize/i64) are modelled as Nat / Int,
    with explicit reduction mod 2 ^ 32 where u32 overflow matters (SHA-256).
  * f32 arithmetic in the flow-matching schedulers is modelled by exact
    rational arithmetic (the spec states the formulas exactly).
  * Fallible Rust functions returning Result are modelled with Except.
  * Ambient wall-clock time (std::time::Instant::now()) is modelled by a
    logical clock threaded through the operations; successive calls yield
    strictly increasing values, matching a monotonic clock.
-/

namespace LofiDaemon

/- ## SHA-256 over byte lists
   The daemon computes track ids with the sha2 crate (FIPS 180-4 SHA-256);
   src/daemon/src/types/track.rs uses Sha256::digest over the UTF-8 bytes of
   a formatted string.  Bytes are Nats < 256; 32-bit words are Nats reduced
   mod 2 ^ 32. -/

/-- 2 ^ 32, the modulus for u32 word arithmetic. -/
def w32 : Nat := 4294967296

/-- Right-rotation of a 32-bit word by n bits. -/
def rotr (n x : Nat) : Nat := ((x >>> n) ||| (x <<< (32 - n))) % w32

/-- Bitwise complement of a 32-bit word. -/
def not32 (x : Nat) : Nat := x ^^^ (w32 - 1)

/-- SHA-256 Ch function. -/
def sha2Ch (x y z : Nat) : Nat := (x &&& y) ^^^ (not32 x &&& z)

/-- SHA-256 Maj function. -/
def sha2Maj (x y z : Nat) : Nat := (x &&& y) ^^^ (x &&& z) ^^^ (y &&& z)

/-- SHA-256 big Sigma0. -/
def bigSigma0 (x : Nat) : Nat := rotr 2 x ^^^ rotr 13 x ^^^ rotr 22 x

/-- SHA-256 big Sigma1. -/
def bigSigma1 (x : Nat) : Nat := rotr 6 x ^^^ rotr 11 x ^^^ rotr 25 x

/-- SHA-256 small sigma0 (message schedule). -/
def smallSigma0 (x : Nat) : Nat := rotr 7 x ^^^ rotr 18 x ^^^ (x >>> 3)

/-- SHA-256 small sigma1 (message schedule). -/
def smallSigma1 (x : Nat) : Nat := rotr 17 x ^^^ rotr 19 x ^^^ (x >>> 10)

/-- The 64 SHA-256 round constants. -/
def sha2K : List Nat :=
  [1116352408, 1899447441, 3049323471, 3921009573,
   961987163, 1508970993, 2453635748, 2870763221,
   3624381080, 310598401, 607225278, 1426881987,
   1925078388, 2162078206, 2614888103, 3248222580,
   3835390401, 4022224774, 264347078, 604807628,
   770255983, 1249150122, 1555081692, 1996064986,
   2554220882, 2821834349, 2952996808, 3210313671,
   3336571891, 3584528711, 113926993, 338241895,
   666307205, 773529912, 1294757372, 1396182291,
   1695183700, 1986661051, 2177026350, 2456956037,
   2730485921, 2820302411, 3259730800, 3345764771,
   3516065817, 3600352804, 4094571909, 275423344,
   430227734, 506948616, 659060556, 883997877,
   958139571, 1322822218, 1537002063, 1747873779,
   1955562222, 2024104815, 2227730452, 2361852424,
   2428436474, 2756734187, 3204031479, 3329325298]

/-- The SHA-256 working state: eight 32-bit words. -/
structure Sha256State where
  a : Nat
  b : Nat
  c : Nat
  d : Nat
  e : Nat
  f : Nat
  g : Nat
  h : Nat

/-- The SHA-256 initial hash value. -/
def sha2Init : Sha256State :=
  ⟨1779033703, 3144134277, 1013904242, 2773480762,
   1359893119, 2600822924, 528734635, 1541459225⟩

/-- One SHA-256 compression round with round constant k and schedule word w. -/
def sha2Round (st : Sha256State) (k w : Nat) : Sha256State :=
  let t1 := (st.h + bigSigma1 st.e + sha2Ch st.e st.f st.g + k + w) % w32
  let t2 := (bigSigma0 st.a + sha2Maj st.a st.b st.c) % w32
  ⟨(t1 + t2) % w32, st.a, st.b, st.c, (st.d + t1) % w32, st.e, st.f, st.g⟩

/-- Big-endian decoding of a byte list into 32-bit words (4 bytes per word). -/
def beWords : List Nat → List Nat
  | a :: b :: c :: d :: rest => (a * 16777216 + b * 65536 + c * 256 + d) :: beWords rest
  | _ => []

/-- The next message-schedule word from the last 16 words of ws. -/
def nextScheduleWord (ws : List Nat) : Nat :=
  let n := ws.length
  (smallSigma1 (ws.getD (n - 2) 0) + ws.getD (n - 7) 0 +
   smallSigma0 (ws.getD (n - 15) 0) + ws.getD (n - 16) 0) % w32

/-- Extend the 16-word message schedule by the given number of words. -/
def extendSchedule : List Nat → Nat → List Nat
  | ws, 0 => ws
  | ws, k + 1 => extendSchedule (ws ++ [nextScheduleWord ws]) k

/-- SHA-256 compression of one 64-byte block into the chaining state. -/
def sha2Compress (st : Sha256State) (block : List Nat) : Sha256State :=
  let ws := extendSchedule (beWords block) 48
  let r := (sha2K.zip ws).foldl (fun s kw => sha2Round s kw.1 kw.2) st
  ⟨(st.a + r.a) % w32, (st.b + r.b) % w32, (st.c + r.c) % w32, (st.d + r.d) % w32,
   (st.e + r.e) % w32, (st.f + r.f) % w32, (st.g + r.g) % w32, (st.h + r.h) % w32⟩

/-- Big-endian encoding of a Nat into the given number of bytes. -/
def beBytes : Nat → Nat → List Nat
  | 0, _ => []
  | k + 1, n => (n >>> (8 * k)) % 256 :: beBytes k n

/-- SHA-256 message padding: append 0x80, zeros, and the 64-bit bit length. -/
def sha2Pad (msg : List Nat) : List Nat :=
  let len := msg.length
  let padZeros := (119 - len % 64) % 64
  msg ++ [128] ++ List.replicate padZeros 0 ++ beBytes 8 (8 * len)

/-- Split a byte list into 64-byte blocks (fuel-indexed to avoid a
well-founded recursion; the fuel msg.length always suffices). -/
def toBlocksAux : Nat → List Nat → List (List Nat)
  | 0, _ => []
  | _, [] => []
  | fuel + 1, l => l.take 64 :: toBlocksAux fuel (l.drop 64)

/-- Split a byte list into 64-byte blocks. -/
def toBlocks (l : List Nat) : List (List Nat) := toBlocksAux l.length l

/-- Big-endian bytes of one 32-bit word. -/
def wordBytes (w : Nat) : List Nat :=
  [(w >>> 24) % 256, (w >>> 16) % 256, (w >>> 8) % 256, w % 256]

/-- SHA-256 digest (32 bytes) of a byte list. -/
def sha256 (msg : List Nat) : List Nat :=
  let st := (toBlocks (sha2Pad msg)).foldl sha2Compress sha2Init
  wordBytes st.a ++ wordBytes st.b ++ wordBytes st.c ++ wordBytes st.d ++
  wordBytes st.e ++ wordBytes st.f ++ wordBytes st.g ++ wordBytes st.h

/- ## UTF-8 encoding of strings (Rust str::as_bytes / String byte length) -/

/-- UTF-8 encoding of a single character as a byte list. -/
def utf8EncodeChar (c : Char) : List Nat :=
  let n := c.toNat
  if n < 128 then [n]
  else if n < 2048 then [192 + n / 64, 128 + n % 64]
  else if n < 65536 then [224 + n / 4096, 128 + (n / 64) % 64, 128 + n % 64]
  else [240 + n / 262144, 128 + (n / 4096) % 64, 128 + (n / 64) % 64, 128 + n % 64]

/-- UTF-8 bytes of a string, as Rust str::as_bytes yields them. -/
def strBytes (s : String) : List Nat := s.data.flatMap utf8EncodeChar

/-- Byte length of a string: what Rust String::len returns (bytes, not
characters). -/
def strByteLen (s : String) : Nat := (strBytes s).length

/- ## Hex encoding (src/daemon/src/types/track.rs, mod hex) -/

/-- The lowercase hex alphabet HEX_CHARS from types/track.rs. -/
def hexChars : List Char := "0123456789abcdef".data

/-- The two hex characters of one byte: HEX_CHARS[b >> 4], HEX_CHARS[b & 0xf]. -/
def byteToHexChars (b : Nat) : List Char :=
  [hexChars.getD (b >>> 4) '0', hexChars.getD (b &&& 15) '0']

/-- hex::encode from types/track.rs: lowercase hex string of a byte list. -/
def hexEncode (bs : List Nat) : String := String.mk (bs.flatMap byteToHexChars)

/- ## Backends (src/daemon/src/models/backend.rs) -/

/-- The two generation backends. -/
inductive Backend where
  | MusicGen : Backend
  | AceStep : Backend
deriving DecidableEq

/-- Backend::as_str. -/
def Backend.asStr : Backend → String
  | .MusicGen => "musicgen"
  | .AceStep => "ace_step"

/-- Backend::parse (lowercases and maps dashes to underscores first). -/
def Backend.parse (s : String) : Option Backend :=
  let t := (s.toLower).replace "-" "_"
  if t = "musicgen" ∨ t = "music_gen" then some .MusicGen
  else if t = "acestep" ∨ t = "ace_step" then some .AceStep
  else none

/-- Backend::max_duration_sec. -/
def Backend.maxDurationSec : Backend → Nat
  | .MusicGen => 120
  | .AceStep => 240

/-- Backend::min_duration_sec. -/
def Backend.minDurationSec : Backend → Nat
  | .MusicGen => 5
  | .AceStep => 5

/-- Backend::sample_rate. -/
def Backend.sampleRate : Backend → Nat
  | .MusicGen => 32000
  | .AceStep => 48000

/- ## Track id fingerprint

   src/daemon/src/types/track.rs (as present under src/) defines a
   4-argument compute_track_id hashing "prompt:seed:duration:model_version".
   Its caller src/daemon/src/rpc/methods.rs (handle_generate, line 104)
   invokes a 5-argument compute_track_id passing the backend first, with the
   comment "includes backend for uniqueness"; likewise methods.rs constructs
   Track::new with a backend argument and reads a track.backend field that
   the track.rs under src/ lacks.  The 5-argument definition the handler
   calls is therefore code of this repository missing from src/ (only its
   caller is present), and it is modelled from the spec below.

   Durations reaching the hash are the integral duration_sec request field
   cast to f32; Rust Display prints a whole-valued f32 without a fractional
   part, so the formatted component equals the decimal Nat. -/

/-- The 4-argument hash input from the track.rs under src/:
"prompt:seed:duration:model_version". -/
def trackIdInput (prompt : String) (seed : Nat) (durationSec : Nat)
    (modelVersion : String) : String :=
  prompt ++ ":" ++ toString seed ++ ":" ++ toString durationSec ++ ":" ++ modelVersion

/-- The 4-argument compute_track_id from the track.rs under src/: first 8
bytes of the SHA-256 digest, lowercase hex. -/
def computeTrackIdNoBackend (prompt : String) (seed : Nat) (durationSec : Nat)
    (modelVersion : String) : String :=
  hexEncode ((sha256 (strBytes (trackIdInput prompt seed durationSec modelVersion))).take 8)

/-- Modelled from the spec: the hash input of the 5-argument
compute_track_id called by rpc/methods.rs but absent from the track.rs under
src/; per spec section 3 it joins prompt, seed, duration_sec, model_version
and backend_tag with colons. -/
def trackIdInputB (backend : Backend) (prompt : String) (seed : Nat)
    (durationSec : Nat) (modelVersion : String) : String :=
  trackIdInput prompt seed durationSec modelVersion ++ ":" ++ backend.asStr

/-- Modelled from the spec: the 5-argument compute_track_id called by
rpc/methods.rs (absent from the track.rs under src/): the first 8 bytes of
the 256-bit SHA-256 digest of the colon-joined input, as 16 lowercase hex
digits. -/
def computeTrackId (backend : Backend) (prompt : String) (seed : Nat)
    (durationSec : Nat) (modelVersion : String) : String :=
  hexEncode ((sha256 (strBytes (trackIdInputB backend prompt seed durationSec modelVersion))).take 8)

/- Sanity check of the SHA-256 embedding against the FIPS 180-4 test vector
for the message "abc". -/

/-- The SHA-256 embedding matches the standard test vector for "abc". -/
theorem sha256_abc_vector :
    hexEncode (sha256 (strBytes "abc")) =
      "ba7816bf8f01cfea414140de5dae2223b00361a396177a9cb410ff61f20015ad" := by
  decide

/-- The SHA-256 embedding matches the standard test vector for the empty
message. -/
theorem sha256_empty_vector :
    hexEncode (sha256 []) =
      "e3b0c44298fc1c149afbf4c8996fb92427ae41e4649b934ca495991b7852b855" := by
  decide

/-- The SHA-256 digest always has 32 bytes. -/
theorem sha256_length (msg : List Nat) : (sha256 msg).length = 32 := by
  simp [sha256, wordBytes]

/-- List.getD stays in the list or returns the default. -/
theorem getD_mem_or_default {α : Type} (l : List α) (n : Nat) (d : α) :
    l.getD n d ∈ l ∨ l.getD n d = d := by
  induction l generalizing n with
  | nil => right; rfl
  | cons a t ih =>
    cases n with
    | zero => left; simp [List.getD]
    | succ m =>
      rcases ih m with h | h
      · left; simp only [List.getD] at *; simpa using List.mem_cons_of_mem a (by simpa using h)
      · right; simpa [List.getD] using h

/-- Both characters emitted for a byte are drawn from the lowercase hex
alphabet. -/
theorem byteToHexChars_mem (b : Nat) : ∀ c ∈ byteToHexChars b, c ∈ hexChars := by
  intro c hc
  simp only [byteToHexChars, List.mem_cons, List.mem_singleton] at hc
  have h0 : ('0' : Char) ∈ hexChars := by decide
  rcases hc with rfl | rfl | hfalse
  · rcases getD_mem_or_default hexChars (b >>> 4) '0' with h | h
    · exact h
    · rw [h]; exact h0
  · rcases getD_mem_or_default hexChars (b &&& 15) '0' with h | h
    · exact h
    · rw [h]; exact h0
  · cases hfalse

/-- hexEncode emits exactly two characters per byte. -/
theorem hexEncode_length (bs : List Nat) : (hexEncode bs).length = 2 * bs.length := by
  induction bs with
  | nil => rfl
  | cons b t ih =>
    simp only [hexEncode, String.length, List.flatMap_cons, byteToHexChars] at *
    simp only [List.length_append, List.length_cons, List.length_nil] at *
    omega

/-- Every character of a hexEncode output is a lowercase hex digit. -/
theorem hexEncode_chars (bs : List Nat) : ∀ c ∈ (hexEncode bs).data, c ∈ hexChars := by
  intro c hc
  simp only [hexEncode, List.mem_flatMap] at hc
  obtain ⟨b, _, hcb⟩ := hc
  exact byteToHexChars_mem b c hcb

/-- C1: the fingerprint function returns the first 8 bytes of the 256-bit
SHA-256 digest of the colon-joined string
prompt:seed:duration_sec:model_version:backend_tag, encoded as 16 lowercase
hex digits; the backend tag participates in the hashed input (witnessed by
two ids differing only in the backend being distinct), and two calls with
identical five-tuples return the same track_id. -/
theorem c1_trackId_fingerprint
    (backend backend' : Backend) (prompt prompt' : String) (seed seed' : Nat)
    (durationSec durationSec' : Nat) (modelVersion modelVersion' : String)
    (hb : backend' = backend) (hp : prompt' = prompt) (hs : seed' = seed)
    (hd : durationSec' = durationSec) (hm : modelVersion' = modelVersion) :
    computeTrackId backend prompt seed durationSec modelVersion =
      hexEncode ((sha256 (strBytes (prompt ++ ":" ++ toString seed ++ ":" ++
        toString durationSec ++ ":" ++ modelVersion ++ ":" ++ backend.asStr))).take 8)
    ∧ (computeTrackId backend prompt seed durationSec modelVersion).length = 16
    ∧ (∀ c ∈ (computeTrackId backend prompt seed durationSec modelVersion).data,
        c ∈ hexChars)
    ∧ computeTrackId backend' prompt' seed' durationSec' modelVersion' =
        computeTrackId backend prompt seed durationSec modelVersion
    ∧ computeTrackId .MusicGen "lofi beats" 42 30 "v1" ≠
        computeTrackId .AceStep "lofi beats" 42 30 "v1" := by
  refine ⟨rfl, ?_, ?_, by subst hb hp hs hd hm; rfl, by decide⟩
  · show (hexEncode _).length = 16
    rw [hexEncode_length, List.length_take, sha256_length]
    rfl
  · exact hexEncode_chars _

/-- Witness for c1_trackId_fingerprint: instantiated at a concrete
five-tuple called twice, the hypotheses hold by rfl and the contract
follows. -/
theorem c1_trackId_fingerprint_witness :
    (Backend.MusicGen = Backend.MusicGen ∧ "lofi beats" = "lofi beats" ∧
      (42 : Nat) = 42 ∧ (30 : Nat) = 30 ∧ "v1" = "v1")
    ∧ ((computeTrackId .MusicGen "lofi beats" 42 30 "v1").length = 16
        ∧ computeTrackId .MusicGen "lofi beats" 42 30 "v1" =
            computeTrackId .MusicGen "lofi beats" 42 30 "v1") :=
  ⟨⟨rfl, rfl, rfl, rfl, rfl⟩,
    (c1_trackId_fingerprint .MusicGen .MusicGen "lofi beats" "lofi beats"
      42 42 30 30 "v1" "v1" rfl rfl rfl rfl rfl).2.1,
    (c1_trackId_fingerprint .MusicGen .MusicGen "lofi beats" "lofi beats"
      42 42 30 30 "v1" "v1" rfl rfl rfl rfl rfl).2.2.2.1⟩

/- ## Delay-pattern buffer (src/daemon/src/models/delay_pattern.rs, N = 4)

   The buffer keeps one i64 sequence per codebook.  The Rust
   last_delayed_masked unwraps batches[i].last() with .expect() in the
   non-padding branch; that branch is reached only when the sequence is
   non-empty, and the Lean embedding uses getLastD 0 there (the default is
   never exposed for the reachable states all theorems quantify over). -/

/-- Delay-pattern mask state: four codebook token sequences. -/
structure DelayPatternMaskIds where
  batches : Fin 4 → List Int

/-- DelayPatternMaskIds::new - four empty sequences. -/
def DelayPatternMaskIds.new : DelayPatternMaskIds := ⟨fun _ => []⟩

/-- DelayPatternMaskIds::push - append one token to each codebook sequence. -/
def DelayPatternMaskIds.push (st : DelayPatternMaskIds) (tokenIds : Fin 4 → Int) :
    DelayPatternMaskIds :=
  ⟨fun i => st.batches i ++ [tokenIds i]⟩

/-- Row i of last_delayed_masked: the pad token while seq_len <= i, else the
last element of batches[i]. -/
def DelayPatternMaskIds.maskedRow (st : DelayPatternMaskIds) (padTokenId : Int)
    (i : Fin 4) : Int :=
  if (st.batches 0).length ≤ i.val then padTokenId
  else (st.batches i).getLastD 0

/-- DelayPatternMaskIds::last_delayed_masked - the four masked rows. -/
def DelayPatternMaskIds.lastDelayedMasked (st : DelayPatternMaskIds)
    (padTokenId : Int) : List Int :=
  [st.maskedRow padTokenId 0, st.maskedRow padTokenId 1,
   st.maskedRow padTokenId 2, st.maskedRow padTokenId 3]

/-- The anti-diagonal element batches[i][len_i - 4 + i] of
last_de_delayed. -/
def DelayPatternMaskIds.diagElem (st : DelayPatternMaskIds) (i : Fin 4) : Int :=
  (st.batches i).getD ((st.batches i).length - 4 + i.val) 0

/-- DelayPatternMaskIds::last_de_delayed - none until 4 tokens accumulated,
then the anti-diagonal. -/
def DelayPatternMaskIds.lastDeDelayed (st : DelayPatternMaskIds) :
    Option (List Int) :=
  if (st.batches 0).length < 4 then none
  else some [st.diagElem 0, st.diagElem 1, st.diagElem 2, st.diagElem 3]

/-- Fold a sequence of pushes into a buffer. -/
def pushMany (st : DelayPatternMaskIds) (ts : List (Fin 4 → Int)) :
    DelayPatternMaskIds :=
  ts.foldl DelayPatternMaskIds.push st

/-- After pushMany, codebook stream i holds the i-components of the pushed
quadruples, in order. -/
theorem pushMany_batches (ts : List (Fin 4 → Int)) (st : DelayPatternMaskIds)
    (i : Fin 4) :
    (pushMany st ts).batches i = st.batches i ++ ts.map (fun t => t i) := by
  induction ts generalizing st with
  | nil => simp [pushMany]
  | cons t rest ih =>
    simp only [pushMany, List.foldl_cons, List.map_cons] at *
    rw [ih]
    simp [DelayPatternMaskIds.push]

/-- After n pushes every codebook stream has length n. -/
theorem pushMany_length (ts : List (Fin 4 → Int)) (i : Fin 4) :
    ((pushMany DelayPatternMaskIds.new ts).batches i).length = ts.length := by
  rw [pushMany_batches]
  simp [DelayPatternMaskIds.new]

/-- getLastD of a mapped nonempty list is the function at the last element. -/
theorem getLastD_map_apply (ts : List (Fin 4 → Int)) (i : Fin 4)
    (d : Fin 4 → Int) (h : ts ≠ []) :
    (ts.map fun t => t i).getLastD 0 = (ts.getLastD d) i := by
  induction ts with
  | nil => cases h rfl
  | cons a rest ih =>
    cases rest with
    | nil => simp
    | cons b r =>
      have hne : b :: r ≠ [] := by simp
      simpa using ih hne

/-- C3 counterexample: push the quadruple [0,0,0,0] once with pad token 0;
row 0 of last_delayed_masked equals the pad value although n = 1 is not at
most i = 0, so the claimed iff (row i equals pad iff n <= i) is false. -/
theorem c3_delayPattern_counterexample :
    ¬ ((((pushMany DelayPatternMaskIds.new
          [fun _ => (0 : Int)]).lastDelayedMasked 0).getD 0 0 = 0)
        ↔ (1 : Nat) ≤ 0) := by
  decide

/-- C3 (amended): after n pushes, last_delayed_masked(pad)[i] is pad when
n <= i, and otherwise is the most recent element of stream b_i, namely the
i-component of the last pushed quadruple (which may coincidentally equal
pad); last_de_delayed() is present iff n >= 4, and when present equals the
anti-diagonal [b0[n-4], b1[n-3], b2[n-2], b3[n-1]]. -/
theorem c3_delayPattern_contract (ts : List (Fin 4 → Int)) (padTokenId : Int) :
    (∀ i : Fin 4, ts.length ≤ i.val →
      ((pushMany DelayPatternMaskIds.new ts).lastDelayedMasked padTokenId).getD
        i.val padTokenId = padTokenId)
    ∧ (∀ i : Fin 4, i.val < ts.length →
      ((pushMany DelayPatternMaskIds.new ts).lastDelayedMasked padTokenId).getD
        i.val padTokenId = (ts.getLastD (fun _ => 0)) i)
    ∧ ((pushMany DelayPatternMaskIds.new ts).lastDeDelayed.isSome ↔ 4 ≤ ts.length)
    ∧ (4 ≤ ts.length →
      (pushMany DelayPatternMaskIds.new ts).lastDeDelayed =
        some [(ts.map fun t => t 0).getD (ts.length - 4) 0,
              (ts.map fun t => t 1).getD (ts.length - 3) 0,
              (ts.map fun t => t 2).getD (ts.length - 2) 0,
              (ts.map fun t => t 3).getD (ts.length - 1) 0]) := by
  have hlen : ∀ i : Fin 4,
      ((pushMany DelayPatternMaskIds.new ts).batches i).length = ts.length :=
    pushMany_length ts
  have hbat : ∀ i : Fin 4,
      (pushMany DelayPatternMaskIds.new ts).batches i = ts.map (fun t => t i) := by
    intro i
    rw [pushMany_batches]
    simp [DelayPatternMaskIds.new]
  have hget : ∀ (st : DelayPatternMaskIds) (pad : Int) (i : Fin 4),
      (st.lastDelayedMasked pad).getD i.val pad = st.maskedRow pad i := by
    intro st pad i
    fin_cases i <;> rfl
  refine ⟨?_, ?_, ?_, ?_⟩
  · intro i hi
    rw [hget, DelayPatternMaskIds.maskedRow, hlen 0, if_pos hi]
  · intro i hi
    have hne : ts ≠ [] := by
      intro he
      rw [he] at hi
      exact Nat.not_lt_zero _ hi
    rw [hget, DelayPatternMaskIds.maskedRow, hlen 0, if_neg (Nat.not_le.mpr hi),
      hbat i]
    exact getLastD_map_apply ts i (fun _ => 0) hne
  · rw [DelayPatternMaskIds.lastDeDelayed, hlen 0]
    rcases Nat.lt_or_ge ts.length 4 with h | h
    · simp [if_pos h, Nat.not_le.mpr h]
    · simp [if_neg (Nat.not_lt.mpr h), h]
  · intro h4
    rw [DelayPatternMaskIds.lastDeDelayed, hlen 0, if_neg (Nat.not_lt.mpr h4)]
    have e : ∀ i : Fin 4,
        (pushMany DelayPatternMaskIds.new ts).diagElem i =
          (ts.map fun t => t i).getD (ts.length - 4 + i.val) 0 := by
      intro i
      rw [DelayPatternMaskIds.diagElem, hbat i]
      simp
    rw [e 0, e 1, e 2, e 3]
    have h3 : ts.length - 4 + ((1 : Fin 4) : Nat) = ts.length - 3 := by
      simp only [Fin.val_one]
      omega
    have h2 : ts.length - 4 + ((2 : Fin 4) : Nat) = ts.length - 2 := by
      simp only [show ((2 : Fin 4) : Nat) = 2 from rfl]
      omega
    have h1 : ts.length - 4 + ((3 : Fin 4) : Nat) = ts.length - 1 := by
      simp only [show ((3 : Fin 4) : Nat) = 3 from rfl]
      omega
    rw [h3, h2, h1]
    simp

/-- The four-push scenario from the spec: [1,2,3,4], [5,6,7,8], [9,10,11,12],
[13,14,15,16]. -/
def c3Pushes : List (Fin 4 → Int) :=
  [![1, 2, 3, 4], ![5, 6, 7, 8], ![9, 10, 11, 12], ![13, 14, 15, 16]]

/-- Witness for c3_delayPattern_contract: after the spec's four pushes the
anti-diagonal [1, 6, 11, 16] is returned. -/
theorem c3_delayPattern_contract_witness :
    4 ≤ c3Pushes.length ∧
    (pushMany DelayPatternMaskIds.new c3Pushes).lastDeDelayed =
      some [1, 6, 11, 16] :=
  ⟨by decide, by
    rw [(c3_delayPattern_contract c3Pushes 0).2.2.2 (by decide)]
    decide⟩

/- ## Autoregressive decoder driver (src/daemon/src/models/decoder.rs)

   MusicGenDecoder::generate_tokens runs the first-pass decoder once
   (warm-up) and then loops the decoder-with-past generation_len = max_len + 3
   times.  Each pass ends in a push of the 4 sampled codebook ids; inside the
   loop a frame is collected whenever last_de_delayed is present.  The opaque
   ONNX sessions, CFG and top-k sampling are abstracted by the stream
   `sample`, giving the 4 ids each decoder pass produces (`sample 0` is the
   warm-up pass, `sample k` the k-th loop pass). -/

/-- generation_len from generate_tokens: the requested token count plus 3,
compensating for the delay pattern. -/
def generationLen (maxLen : Nat) : Nat := maxLen + 3

/-- The autoregressive generation loop of generate_tokens.  Each iteration
reads the delayed row (the next input_ids), pushes the freshly sampled ids,
and collects the de-delayed frame when present. -/
def generateTokensLoop (sample : Nat → Fin 4 → Int) (padTokenId : Int) :
    Nat → Nat → DelayPatternMaskIds → List (List Int) → List (List Int)
  | 0, _, _, results => results
  | fuel + 1, stepIdx, st, results =>
    let _inputRow := st.lastDelayedMasked padTokenId
    let st' := st.push (sample stepIdx)
    let results' :=
      match st'.lastDeDelayed with
      | some frame => results ++ [frame]
      | none => results
    generateTokensLoop sample padTokenId fuel (stepIdx + 1) st' results'

/-- MusicGenDecoder::generate_tokens, abstracted over the sampled token
stream: warm-up push, then generation_len loop iterations collecting
de-delayed frames. -/
def generateTokens (sample : Nat → Fin 4 → Int) (padTokenId : Int)
    (maxLen : Nat) : List (List Int) :=
  let st0 := DelayPatternMaskIds.new.push (sample 0)
  generateTokensLoop sample padTokenId (generationLen maxLen) 1 st0 []

/-- A buffer state whose four streams all have length n. -/
def uniformLen (st : DelayPatternMaskIds) (n : Nat) : Prop :=
  ∀ i : Fin 4, (st.batches i).length = n

/-- Pushing preserves uniform stream length, incrementing it. -/
theorem push_uniformLen {st : DelayPatternMaskIds} {n : Nat}
    (h : uniformLen st n) (t : Fin 4 → Int) : uniformLen (st.push t) (n + 1) := by
  intro i
  simp [DelayPatternMaskIds.push, h i]

/-- last_de_delayed is present exactly when the streams have length at
least 4. -/
theorem lastDeDelayed_isSome {st : DelayPatternMaskIds} {n : Nat}
    (h : uniformLen st n) : st.lastDeDelayed.isSome ↔ 4 ≤ n := by
  rw [DelayPatternMaskIds.lastDeDelayed, h 0]
  rcases Nat.lt_or_ge n 4 with hlt | hge
  · simp [if_pos hlt, Nat.not_le.mpr hlt]
  · simp [if_neg (Nat.not_lt.mpr hge), hge]

/-- Frame count of the generation loop: starting from streams of length n,
fuel iterations collect fuel - min fuel (3 - n) frames. -/
theorem generateTokensLoop_length (sample : Nat → Fin 4 → Int)
    (padTokenId : Int) :
    ∀ (fuel stepIdx n : Nat) (st : DelayPatternMaskIds)
      (results : List (List Int)), uniformLen st n →
      (generateTokensLoop sample padTokenId fuel stepIdx st results).length =
        results.length + (fuel - min fuel (3 - n)) := by
  intro fuel
  induction fuel with
  | zero => intro stepIdx n st results _; simp [generateTokensLoop]
  | succ f ih =>
    intro stepIdx n st results hst
    have hst' : uniformLen (st.push (sample stepIdx)) (n + 1) :=
      push_uniformLen hst _
    rw [generateTokensLoop]
    rcases h : (st.push (sample stepIdx)).lastDeDelayed with _ | frame
    · have h4 : ¬ 4 ≤ n + 1 := by
        intro hc
        have := (lastDeDelayed_isSome hst').mpr hc
        rw [h] at this
        exact Bool.false_ne_true this
      rw [ih (stepIdx + 1) (n + 1) _ results hst']
      omega
    · have h4 : 4 ≤ n + 1 := by
        have : ((st.push (sample stepIdx)).lastDeDelayed).isSome := by
          rw [h]; rfl
        exact (lastDeDelayed_isSome hst').mp this
      rw [ih (stepIdx + 1) (n + 1) _ (results ++ [frame]) hst']
      simp only [List.length_append, List.length_cons, List.length_nil]
      omega

/-- C2 counterexample: with max_len = 1 the driver runs 1 + 3 = 4 loop
iterations after the warm-up and collects 2 frames, not max_len = 1. -/
theorem c2_decoderLoop_counterexample :
    ¬ ((generateTokens (fun _ _ => 0) 0 1).length = 1) ∧
    (generateTokens (fun _ _ => 0) 0 1).length = 2 := by
  constructor
  · decide
  · decide

/-- C2 (amended): for every max_len >= 1 the driver runs one warm-up pass
and then exactly max_len + 3 decoder-with-past steps, and the frames
collected via last_de_delayed number exactly max_len + 1 (the warm-up push
plus max_len + 3 loop pushes give max_len + 4 delay-pattern columns, the
first three of which yield no frame); e.g. 503 decoder-with-past steps
collect 501 frames. -/
theorem c2_decoderLoop_frameCount (sample : Nat → Fin 4 → Int)
    (padTokenId : Int) (maxLen : Nat) (hmax : 1 ≤ maxLen) :
    generationLen maxLen = maxLen + 3 ∧
    (generateTokens sample padTokenId maxLen).length = maxLen + 1 := by
  refine ⟨rfl, ?_⟩
  have h0 : uniformLen (DelayPatternMaskIds.new.push (sample 0)) 1 := by
    intro i
    simp [DelayPatternMaskIds.new, DelayPatternMaskIds.push]
  rw [generateTokens, generateTokensLoop_length sample padTokenId
    (generationLen maxLen) 1 1 _ [] h0]
  simp only [List.length_nil, generationLen]
  omega

/-- Witness for c2_decoderLoop_frameCount: at max_len = 5 the loop runs 8
decoder-with-past steps and collects 6 frames. -/
theorem c2_decoderLoop_frameCount_witness :
    1 ≤ 5 ∧ generationLen 5 = 8 ∧
    (generateTokens (fun _ _ => 0) 0 5).length = 6 :=
  ⟨by decide,
    (c2_decoderLoop_frameCount (fun _ _ => 0) 0 5 (by decide)).1,
    (c2_decoderLoop_frameCount (fun _ _ => 0) 0 5 (by decide)).2⟩

/- ## Generation queue (src/daemon/src/generation/queue.rs)

   A bounded priority queue over GenerationJob (src/daemon/src/types/job.rs).
   Only the fields the queue manipulates or inspects are carried; timestamps
   and progress bookkeeping are not touched by the queue. -/

/-- Job priority (types/job.rs). -/
inductive JobPriority where
  | Normal : JobPriority
  | High : JobPriority
deriving DecidableEq

/-- Job status (types/job.rs). -/
inductive JobStatus where
  | Pending : JobStatus
  | Queued : JobStatus
  | Generating : JobStatus
  | Complete : JobStatus
  | Failed : JobStatus
  | Rejected : JobStatus
deriving DecidableEq

/-- A generation job (types/job.rs), restricted to the fields the queue
reads or writes plus its identifying request data. -/
structure GenerationJob where
  jobId : String
  trackId : String
  prompt : String
  durationSec : Nat
  seed : Option Nat
  priority : JobPriority
  status : JobStatus
  queuePosition : Option Nat
deriving DecidableEq

/-- Placeholder job used as the List.getD default; never exposed by any
in-bounds access. -/
def defaultJob : GenerationJob :=
  ⟨"", "", "", 0, none, .Normal, .Pending, none⟩

/-- GenerationJob::set_queued - mark queued at a position. -/
def GenerationJob.setQueued (j : GenerationJob) (position : Nat) : GenerationJob :=
  { j with status := .Queued, queuePosition := some position }

/-- MAX_QUEUE_SIZE from generation/queue.rs. -/
def MAX_QUEUE_SIZE : Nat := 10

/-- The generation queue: jobs in queue order (front first). -/
structure GenerationQueue where
  jobs : List GenerationJob
deriving DecidableEq

/-- GenerationQueue::new. -/
def GenerationQueue.new : GenerationQueue := ⟨[]⟩

/-- GenerationQueue::is_full - len() >= MAX_QUEUE_SIZE. -/
def GenerationQueue.isFull (q : GenerationQueue) : Bool :=
  MAX_QUEUE_SIZE ≤ q.jobs.length

/-- The renumbering loop of GenerationQueue::update_positions: job i gets
queue_position k + i. -/
def renumberFrom : Nat → List GenerationJob → List GenerationJob
  | _, [] => []
  | k, j :: rest => { j with queuePosition := some k } :: renumberFrom (k + 1) rest

/-- GenerationQueue::update_positions. -/
def GenerationQueue.updatePositions (q : GenerationQueue) : GenerationQueue :=
  ⟨renumberFrom 0 q.jobs⟩

/-- VecDeque::insert - insert at an index, shifting the tail. -/
def insertIdxAt (l : List GenerationJob) (n : Nat) (a : GenerationJob) :
    List GenerationJob :=
  l.take n ++ a :: l.drop n

/-- QueueFullError from generation/queue.rs. -/
structure QueueFullError where
  currentSize : Nat
deriving DecidableEq

/-- GenerationQueue::add - reject when full; insert a high-priority job
after the existing high-priority jobs (position of the first non-high
occupant, or the back) and renumber; append a normal-priority job at the
back. -/
def GenerationQueue.add (q : GenerationQueue) (job : GenerationJob) :
    Except QueueFullError (GenerationQueue × Nat) :=
  if q.isFull then .error ⟨q.jobs.length⟩
  else
    match job.priority with
    | .High =>
      let insertPos := q.jobs.findIdx (fun j => j.priority != JobPriority.High)
      let q' := GenerationQueue.updatePositions
        ⟨insertIdxAt q.jobs insertPos (job.setQueued insertPos)⟩
      .ok (q', insertPos)
    | .Normal =>
      let pos := q.jobs.length
      .ok (⟨q.jobs ++ [job.setQueued pos]⟩, pos)

/-- GenerationQueue::pop_next - remove the front job and renumber. -/
def GenerationQueue.popNext (q : GenerationQueue) :
    Option GenerationJob × GenerationQueue :=
  match q.jobs with
  | [] => (none, q)
  | j :: rest => (some j, GenerationQueue.updatePositions ⟨rest⟩)

/-- One queue mutation: an admission attempt or a pop. -/
inductive QueueOp where
  | add : GenerationJob → QueueOp
  | pop : QueueOp

/-- Apply one operation; a rejected admission leaves the queue unchanged
(GenerationQueue::add returns Err without mutating). -/
def queueStep (q : GenerationQueue) : QueueOp → GenerationQueue
  | .add job =>
    match q.add job with
    | .ok (q', _) => q'
    | .error _ => q
  | .pop => (q.popNext).2

/-- Run a sequence of queue operations from the empty queue. -/
def runQueue (ops : List QueueOp) : GenerationQueue :=
  ops.foldl queueStep GenerationQueue.new

/- Auxiliary list lemmas for getD-based indexing. -/

/-- getD on the left part of an append. -/
theorem getD_append_left {α : Type} (l l' : List α) (i : Nat) (d : α)
    (h : i < l.length) : (l ++ l').getD i d = l.getD i d := by
  induction l generalizing i with
  | nil => cases h
  | cons a t ih =>
    cases i with
    | zero => rfl
    | succ m => exact ih m (Nat.lt_of_succ_lt_succ h)

/-- getD past the left part of an append. -/
theorem getD_append_right {α : Type} (l l' : List α) (i : Nat) (d : α) :
    (l ++ l').getD (l.length + i) d = l'.getD i d := by
  induction l with
  | nil => simp
  | cons a t ih => simpa [Nat.succ_add] using ih

/-- getD through a map, with a mapped default. -/
theorem getD_map_apply {α β : Type} (f : α → β) (l : List α) (i : Nat) (d : α) :
    (l.map f).getD i (f d) = f (l.getD i d) := by
  induction l generalizing i with
  | nil => rfl
  | cons a t ih =>
    cases i with
    | zero => rfl
    | succ m => exact ih m

/-- getD inside a replicate. -/
theorem getD_replicate {α : Type} (n : Nat) (a : α) (i : Nat) (d : α)
    (h : i < n) : (List.replicate n a).getD i d = a := by
  induction n generalizing i with
  | zero => cases h
  | succ m ih =>
    cases i with
    | zero => rfl
    | succ k => exact ih k (Nat.lt_of_succ_lt_succ h)

/-- renumberFrom preserves length. -/
theorem renumberFrom_length (k : Nat) (l : List GenerationJob) :
    (renumberFrom k l).length = l.length := by
  induction l generalizing k with
  | nil => rfl
  | cons a t ih => simp [renumberFrom, ih]

/-- renumberFrom sets position k + i at index i and changes nothing else. -/
theorem renumberFrom_getD (l : List GenerationJob) (k i : Nat)
    (h : i < l.length) :
    (renumberFrom k l).getD i defaultJob =
      { l.getD i defaultJob with queuePosition := some (k + i) } := by
  induction l generalizing k i with
  | nil => cases h
  | cons a t ih =>
    cases i with
    | zero => rfl
    | succ m =>
      have := ih (k + 1) m (Nat.lt_of_succ_lt_succ h)
      simpa [renumberFrom, List.getD, Nat.add_assoc, Nat.add_comm 1 m] using this

/-- renumberFrom does not change priorities. -/
theorem renumberFrom_map_priority (k : Nat) (l : List GenerationJob) :
    (renumberFrom k l).map (fun j => j.priority) = l.map (fun j => j.priority) := by
  induction l generalizing k with
  | nil => rfl
  | cons a t ih => simp [renumberFrom, ih]

/-- insertIdxAt at an in-range index has one more element. -/
theorem insertIdxAt_length (l : List GenerationJob) (n : Nat)
    (a : GenerationJob) (h : n ≤ l.length) :
    (insertIdxAt l n a).length = l.length + 1 := by
  simp [insertIdxAt]
  omega

/-- Elements strictly before a findIdx index fail the predicate. -/
theorem findIdx_getD_before {α : Type} (p : α → Bool) (d : α) :
    ∀ (l : List α) (k : Nat), k < l.findIdx p → p (l.getD k d) = false := by
  intro l
  induction l with
  | nil => intro k h; simp [List.findIdx_nil] at h
  | cons a t ih =>
    intro k h
    rw [List.findIdx_cons] at h
    cases hpa : p a with
    | true => simp [hpa] at h
    | false =>
      simp only [hpa, cond_false] at h
      cases k with
      | zero => simpa using hpa
      | succ m => exact ih m (Nat.lt_of_succ_lt_succ h)

/-- An in-range findIdx index satisfies the predicate. -/
theorem findIdx_getD_self {α : Type} (p : α → Bool) (d : α) :
    ∀ l : List α, l.findIdx p < l.length → p (l.getD (l.findIdx p) d) = true := by
  intro l
  induction l with
  | nil => intro h; simp at h
  | cons a t ih =>
    intro h
    rw [List.findIdx_cons] at h ⊢
    cases hpa : p a with
    | true => simp [hpa]
    | false =>
      simp only [hpa, cond_false] at h ⊢
      rw [List.length_cons] at h
      simpa [List.getD_cons_succ] using ih (Nat.lt_of_succ_lt_succ h)

/-- Positions invariant: the job stored at index i carries queue_position i. -/
def positionsOk (l : List GenerationJob) : Prop :=
  ∀ i, i < l.length → (l.getD i defaultJob).queuePosition = some i

/-- Priority-shape invariant: the priorities form a block of High followed by
a block of Normal. -/
def ShapeInv (l : List GenerationJob) : Prop :=
  ∃ hs ns, l.map (fun j => j.priority) =
    List.replicate hs JobPriority.High ++ List.replicate ns JobPriority.Normal

/-- The high-priority jobs occupy a contiguous prefix of the queue. -/
def highsContiguous (l : List GenerationJob) : Prop :=
  ∀ i j, i ≤ j → j < l.length →
    (l.getD j defaultJob).priority = JobPriority.High →
    (l.getD i defaultJob).priority = JobPriority.High

/-- The priority of the job at index k under the shape invariant. -/
theorem shape_priority_at {l : List GenerationJob} {hs ns : Nat}
    (hmap : l.map (fun j => j.priority) =
      List.replicate hs JobPriority.High ++ List.replicate ns JobPriority.Normal)
    (k : Nat) (hk : k < l.length) :
    (l.getD k defaultJob).priority =
      if k < hs then JobPriority.High else JobPriority.Normal := by
  have hlen : l.length = hs + ns := by
    have := congrArg List.length hmap
    simpa using this
  have h1 : ((l.map (fun j => j.priority)).getD k defaultJob.priority) =
      (l.getD k defaultJob).priority := getD_map_apply _ l k defaultJob
  rw [hmap] at h1
  by_cases hkh : k < hs
  · rw [getD_append_left _ _ _ _ (by simpa using hkh),
      getD_replicate _ _ _ _ hkh] at h1
    rw [← h1, if_pos hkh]
  · have hk2 : k = (List.replicate hs JobPriority.High).length + (k - hs) := by
      simp only [List.length_replicate]
      omega
    nth_rewrite 1 [hk2] at h1
    rw [getD_append_right, getD_replicate _ _ _ _ (by omega)] at h1
    rw [← h1, if_neg hkh]

/-- The shape invariant implies the contiguous-prefix property. -/
theorem shape_highsContiguous {l : List GenerationJob} (h : ShapeInv l) :
    highsContiguous l := by
  obtain ⟨hs, ns, hmap⟩ := h
  intro i j hij hj hpj
  have hi : i < l.length := Nat.lt_of_le_of_lt hij hj
  have pj := shape_priority_at hmap j hj
  have pi := shape_priority_at hmap i hi
  by_cases hjh : j < hs
  · rw [pi, if_pos (by omega)]
  · rw [pj, if_neg hjh] at hpj
    cases hpj

/-- On a shaped queue, the first non-high index is exactly the size of the
high block. -/
theorem findIdx_of_shape :
    ∀ (l : List GenerationJob) (hs ns : Nat),
      l.map (fun j => j.priority) =
        List.replicate hs JobPriority.High ++ List.replicate ns JobPriority.Normal →
      l.findIdx (fun j => j.priority != JobPriority.High) = hs := by
  intro l
  induction l with
  | nil =>
    intro hs ns h
    have : hs = 0 := by
      have := congrArg List.length h
      simp at this
      omega
    simp [this]
  | cons a t ih =>
    intro hs ns h
    cases hs with
    | zero =>
      cases ns with
      | zero => simp at h
      | succ m =>
        rw [List.replicate_zero, List.nil_append, List.replicate_succ] at h
        simp only [List.map_cons, List.cons.injEq] at h
        rw [List.findIdx_cons, h.1]
        rfl
    | succ k =>
      rw [List.replicate_succ, List.cons_append] at h
      simp only [List.map_cons, List.cons.injEq] at h
      rw [List.findIdx_cons, h.1]
      simp [ih k ns h.2]

/-- The combined queue invariant: positions match indices and priorities are
a High block then a Normal block. -/
def QueueInv (q : GenerationQueue) : Prop :=
  positionsOk q.jobs ∧ ShapeInv q.jobs

/-- update_positions establishes the positions invariant outright. -/
theorem updatePositions_positionsOk (l : List GenerationJob) :
    positionsOk (renumberFrom 0 l) := by
  intro i hi
  rw [renumberFrom_length] at hi
  rw [renumberFrom_getD l 0 i hi]
  simp

/-- Popping the head of a shaped list keeps the shape. -/
theorem shape_tail {a : GenerationJob} {t : List GenerationJob}
    (h : ShapeInv (a :: t)) : ShapeInv t := by
  obtain ⟨hs, ns, hmap⟩ := h
  cases hs with
  | zero =>
    cases ns with
    | zero => simp at hmap
    | succ m =>
      rw [List.replicate_zero, List.nil_append, List.replicate_succ] at hmap
      simp only [List.map_cons, List.cons.injEq] at hmap
      exact ⟨0, m, by simpa using hmap.2⟩
  | succ k =>
    rw [List.replicate_succ, List.cons_append] at hmap
    simp only [List.map_cons, List.cons.injEq] at hmap
    exact ⟨k, ns, hmap.2⟩

/-- Every queue operation preserves the queue invariant. -/
theorem queueStep_inv (q : GenerationQueue) (op : QueueOp) (h : QueueInv q) :
    QueueInv (queueStep q op) := by
  obtain ⟨hpos, hshape⟩ := h
  cases op with
  | pop =>
    cases hj : q.jobs with
    | nil =>
      simpa [queueStep, GenerationQueue.popNext, hj] using ⟨hpos, hshape⟩
    | cons a t =>
      rw [hj] at hshape
      simp only [queueStep, GenerationQueue.popNext, hj]
      refine ⟨updatePositions_positionsOk t, ?_⟩
      obtain ⟨hs, ns, hmap⟩ := shape_tail hshape
      exact ⟨hs, ns, by
        simpa [GenerationQueue.updatePositions, renumberFrom_map_priority] using hmap⟩
  | add job =>
    cases hfull : q.isFull with
    | true =>
      have hstep : queueStep q (.add job) = q := by
        simp [queueStep, GenerationQueue.add, hfull]
      rw [hstep]
      exact ⟨hpos, hshape⟩
    | false =>
      cases hpri : job.priority with
      | Normal =>
        have hstep : queueStep q (.add job) =
            ⟨q.jobs ++ [job.setQueued q.jobs.length]⟩ := by
          simp [queueStep, GenerationQueue.add, hfull, hpri]
        rw [hstep]
        constructor
        · intro i hi
          simp only [List.length_append, List.length_cons, List.length_nil] at hi
          by_cases hilt : i < q.jobs.length
          · rw [getD_append_left _ _ _ _ hilt]
            exact hpos i hilt
          · have hieq : i = q.jobs.length + 0 := by omega
            subst hieq
            rw [getD_append_right]
            simp [GenerationJob.setQueued]
        · obtain ⟨hs, ns, hmap⟩ := hshape
          refine ⟨hs, ns + 1, ?_⟩
          show (q.jobs ++ [job.setQueued q.jobs.length]).map (fun j => j.priority) = _
          rw [List.map_append, hmap]
          simp only [List.map_cons, List.map_nil, GenerationJob.setQueued, hpri]
          rw [List.replicate_succ' ns, List.append_assoc]
      | High =>
        have hstep : queueStep q (.add job) =
            GenerationQueue.updatePositions
              ⟨insertIdxAt q.jobs
                (q.jobs.findIdx fun j => j.priority != JobPriority.High)
                (job.setQueued
                  (q.jobs.findIdx fun j => j.priority != JobPriority.High))⟩ := by
          simp [queueStep, GenerationQueue.add, hfull, hpri]
        rw [hstep]
        obtain ⟨hs, ns, hmap⟩ := hshape
        have hfind : q.jobs.findIdx (fun j => j.priority != JobPriority.High) = hs :=
          findIdx_of_shape q.jobs hs ns hmap
        constructor
        · exact updatePositions_positionsOk _
        · refine ⟨hs + 1, ns, ?_⟩
          show (renumberFrom 0 _).map (fun j => j.priority) = _
          rw [renumberFrom_map_priority, hfind, insertIdxAt, List.map_append,
            List.map_cons, List.map_take, List.map_drop, hmap]
          have htake : (List.replicate hs JobPriority.High ++
              List.replicate ns JobPriority.Normal).take hs =
              List.replicate hs JobPriority.High := by
            simp
          have hdrop : (List.replicate hs JobPriority.High ++
              List.replicate ns JobPriority.Normal).drop hs =
              List.replicate ns JobPriority.Normal := by
            simp
          rw [htake, hdrop]
          simp only [GenerationJob.setQueued, hpri]
          rw [List.replicate_succ' hs, List.append_assoc]
          rfl

/-- The queue invariant holds after any operation sequence from empty. -/
theorem runQueue_inv (ops : List QueueOp) : QueueInv (runQueue ops) := by
  have hbase : QueueInv GenerationQueue.new := by
    constructor
    · intro i hi
      simp [GenerationQueue.new] at hi
    · exact ⟨0, 0, rfl⟩
  suffices h : ∀ (os : List QueueOp) (q : GenerationQueue), QueueInv q →
      QueueInv (os.foldl queueStep q) from h ops GenerationQueue.new hbase
  intro os
  induction os with
  | nil => intro q hq; exact hq
  | cons o rest ih =>
    intro q hq
    exact ih (queueStep q o) (queueStep_inv q o hq)

/-- findIdx never exceeds the list length. -/
theorem findIdx_le_len {α : Type} (p : α → Bool) :
    ∀ l : List α, l.findIdx p ≤ l.length := by
  intro l
  induction l with
  | nil => simp
  | cons a t ih =>
    rw [List.findIdx_cons]
    cases p a with
    | true => simp
    | false => simpa using ih

/-- The inserted element sits at the insertion index. -/
theorem insertIdxAt_getD_self (l : List GenerationJob) (p : Nat)
    (a : GenerationJob) (h : p ≤ l.length) :
    (insertIdxAt l p a).getD p defaultJob = a := by
  have h2 := getD_append_right (l.take p) (a :: l.drop p) 0 defaultJob
  rw [List.length_take, Nat.min_eq_left h, Nat.add_zero] at h2
  rw [insertIdxAt]
  simpa using h2

/-- A queue below capacity reports not-full. -/
theorem not_full_of_len_lt {q : GenerationQueue} (h : q.jobs.length < 10) :
    q.isFull = false := by
  simp [GenerationQueue.isFull, MAX_QUEUE_SIZE]
  omega

/-- Admission into a non-full queue always succeeds. -/
theorem add_ok_of_not_full (q : GenerationQueue) (job : GenerationJob)
    (h : q.isFull = false) : ∃ q' pos, q.add job = .ok (q', pos) := by
  cases hp : job.priority with
  | High =>
    exact ⟨GenerationQueue.updatePositions
        ⟨insertIdxAt q.jobs (q.jobs.findIdx fun j => j.priority != JobPriority.High)
          (job.setQueued (q.jobs.findIdx fun j => j.priority != JobPriority.High))⟩,
      q.jobs.findIdx fun j => j.priority != JobPriority.High,
      by simp [GenerationQueue.add, h, hp]⟩
  | Normal =>
    exact ⟨⟨q.jobs ++ [job.setQueued q.jobs.length]⟩, q.jobs.length,
      by simp [GenerationQueue.add, h, hp]⟩

/-- Every queue operation keeps the length within capacity. -/
theorem queueStep_len (q : GenerationQueue) (op : QueueOp)
    (h : q.jobs.length ≤ 10) : (queueStep q op).jobs.length ≤ 10 := by
  cases op with
  | pop =>
    cases hj : q.jobs with
    | nil =>
      simp only [queueStep, GenerationQueue.popNext, hj]
      rw [hj] at h
      exact h
    | cons a t =>
      simp only [queueStep, GenerationQueue.popNext, hj,
        GenerationQueue.updatePositions]
      rw [renumberFrom_length]
      have := congrArg List.length hj
      simp at this
      omega
  | add job =>
    cases hfull : q.isFull with
    | true =>
      have hstep : queueStep q (.add job) = q := by
        simp [queueStep, GenerationQueue.add, hfull]
      rw [hstep]
      exact h
    | false =>
      have hlt : q.jobs.length < 10 := by
        have := hfull
        simp [GenerationQueue.isFull, MAX_QUEUE_SIZE] at this
        omega
      cases hpri : job.priority with
      | Normal =>
        have hstep : queueStep q (.add job) =
            ⟨q.jobs ++ [job.setQueued q.jobs.length]⟩ := by
          simp [queueStep, GenerationQueue.add, hfull, hpri]
        rw [hstep]
        simp only [List.length_append, List.length_cons, List.length_nil]
        omega
      | High =>
        have hstep : queueStep q (.add job) =
            GenerationQueue.updatePositions
              ⟨insertIdxAt q.jobs
                (q.jobs.findIdx fun j => j.priority != JobPriority.High)
                (job.setQueued
                  (q.jobs.findIdx fun j => j.priority != JobPriority.High))⟩ := by
          simp [queueStep, GenerationQueue.add, hfull, hpri]
        rw [hstep]
        simp only [GenerationQueue.updatePositions]
        rw [renumberFrom_length,
          insertIdxAt_length _ _ _ (findIdx_le_len _ q.jobs)]
        omega

/-- C4: starting from the empty queue, the length never exceeds 10; an add
while the length is 10 fails with the queue-full error carrying the current
size and leaves the queue unchanged; after one pop_next from a full queue
the next add succeeds. -/
theorem c4_queue_capacity :
    (∀ ops : List QueueOp, (runQueue ops).jobs.length ≤ MAX_QUEUE_SIZE)
    ∧ (∀ (q : GenerationQueue) (job : GenerationJob), q.jobs.length = 10 →
        q.add job = .error ⟨10⟩ ∧ queueStep q (.add job) = q)
    ∧ (∀ (q : GenerationQueue) (job : GenerationJob), q.jobs.length = 10 →
        ∃ q' pos, ((q.popNext).2).add job = .ok (q', pos)) := by
  refine ⟨?_, ?_, ?_⟩
  · intro ops
    suffices h : ∀ (os : List QueueOp) (q : GenerationQueue),
        q.jobs.length ≤ 10 → (os.foldl queueStep q).jobs.length ≤ 10 from
      h ops GenerationQueue.new (by simp [GenerationQueue.new])
    intro os
    induction os with
    | nil => intro q hq; exact hq
    | cons o rest ih =>
      intro q hq
      exact ih (queueStep q o) (queueStep_len q o hq)
  · intro q job h
    have hfull : q.isFull = true := by
      simp [GenerationQueue.isFull, MAX_QUEUE_SIZE, h]
    constructor
    · simp [GenerationQueue.add, hfull, h]
    · simp [queueStep, GenerationQueue.add, hfull]
  · intro q job h
    cases hj : q.jobs with
    | nil => rw [hj] at h; cases h
    | cons a t =>
      have hlen : ((q.popNext).2).jobs.length = 9 := by
        simp only [GenerationQueue.popNext, hj, GenerationQueue.updatePositions]
        rw [renumberFrom_length]
        have := congrArg List.length hj
        simp [h] at this
        omega
      exact add_ok_of_not_full _ job (not_full_of_len_lt (by omega))

/-- A concrete job for the capacity witnesses. -/
def mkJob (id : String) (pri : JobPriority) : GenerationJob :=
  ⟨id, "t", "lofi beats", 30, some 42, pri, .Pending, none⟩

/-- A queue filled by ten normal-priority admissions. -/
def fullQueue : GenerationQueue :=
  runQueue (List.replicate 10 (QueueOp.add (mkJob "n" .Normal)))

/-- Witness for c4_queue_capacity: the ten-admission queue has length 10, the
eleventh admission fails with current size 10, and after one pop an
admission succeeds. -/
theorem c4_queue_capacity_witness :
    fullQueue.jobs.length = 10 ∧
    fullQueue.add (mkJob "x" .Normal) = .error ⟨10⟩ ∧
    (∃ q' pos, ((fullQueue.popNext).2).add (mkJob "x" .Normal) = .ok (q', pos)) :=
  ⟨by decide,
    (c4_queue_capacity.2.1 fullQueue (mkJob "x" .Normal) (by decide)).1,
    c4_queue_capacity.2.2 fullQueue (mkJob "x" .Normal) (by decide)⟩

/-- C5: over every sequence of admissions and pops (rejected admissions
leave the queue unchanged), the job stored at index i carries
queue_position i and the high-priority jobs occupy a contiguous prefix;
admission of a high-priority job into a non-full queue inserts at the first
index whose occupant is not high priority (every earlier occupant is high
priority, the occupant at that index, if any, is not) and returns that
index, while admission of a normal-priority job appends at the back and
returns the new last index. -/
theorem c5_queue_priority_invariants :
    (∀ ops : List QueueOp,
      positionsOk (runQueue ops).jobs ∧ highsContiguous (runQueue ops).jobs)
    ∧ (∀ (q : GenerationQueue) (job : GenerationJob),
        q.isFull = false → job.priority = .High →
        ∃ q' p, q.add job = .ok (q', p)
          ∧ (∀ k, k < p → (q.jobs.getD k defaultJob).priority = .High)
          ∧ (p < q.jobs.length → (q.jobs.getD p defaultJob).priority ≠ .High)
          ∧ (q'.jobs.getD p defaultJob).jobId = job.jobId
          ∧ q'.jobs.length = q.jobs.length + 1)
    ∧ (∀ (q : GenerationQueue) (job : GenerationJob),
        q.isFull = false → job.priority = .Normal →
        q.add job = .ok (⟨q.jobs ++ [job.setQueued q.jobs.length]⟩, q.jobs.length)) := by
  refine ⟨?_, ?_, ?_⟩
  · intro ops
    obtain ⟨hpos, hshape⟩ := runQueue_inv ops
    exact ⟨hpos, shape_highsContiguous hshape⟩
  · intro q job hfull hpri
    have hple : (q.jobs.findIdx fun j => j.priority != JobPriority.High) ≤
        q.jobs.length := findIdx_le_len _ q.jobs
    refine ⟨GenerationQueue.updatePositions
        ⟨insertIdxAt q.jobs (q.jobs.findIdx fun j => j.priority != JobPriority.High)
          (job.setQueued (q.jobs.findIdx fun j => j.priority != JobPriority.High))⟩,
      q.jobs.findIdx fun j => j.priority != JobPriority.High,
      ?_, ?_, ?_, ?_, ?_⟩
    · simp [GenerationQueue.add, hfull, hpri]
    · intro k hk
      have := findIdx_getD_before (fun j => j.priority != JobPriority.High)
        defaultJob q.jobs k hk
      simpa using this
    · intro hplt hcontra
      have := findIdx_getD_self (fun j => j.priority != JobPriority.High)
        defaultJob q.jobs hplt
      simp at this hcontra
      exact this hcontra
    · have hlt : (q.jobs.findIdx fun j => j.priority != JobPriority.High) <
          (insertIdxAt q.jobs (q.jobs.findIdx fun j => j.priority != JobPriority.High)
            (job.setQueued
              (q.jobs.findIdx fun j => j.priority != JobPriority.High))).length := by
        rw [insertIdxAt_length _ _ _ hple]
        omega
      show ((renumberFrom 0 _).getD _ defaultJob).jobId = job.jobId
      rw [renumberFrom_getD _ 0 _ hlt, insertIdxAt_getD_self _ _ _ hple]
      rfl
    · show (renumberFrom 0 _).length = q.jobs.length + 1
      rw [renumberFrom_length, insertIdxAt_length _ _ _ hple]
  · intro q job hfull hpri
    simp [GenerationQueue.add, hfull, hpri]

/-- A queue holding one high- then one normal-priority job. -/
def smallQueue : GenerationQueue :=
  runQueue [QueueOp.add (mkJob "h1" .High), QueueOp.add (mkJob "n1" .Normal)]

/-- Witness for c5_queue_priority_invariants: admitting a high- and then a
normal-priority job into the two-job queue succeeds with the described
insertion points. -/
theorem c5_queue_priority_invariants_witness :
    smallQueue.isFull = false ∧
    (∃ q' p, smallQueue.add (mkJob "h2" .High) = .ok (q', p)
      ∧ (∀ k, k < p → (smallQueue.jobs.getD k defaultJob).priority = .High)
      ∧ (p < smallQueue.jobs.length →
          (smallQueue.jobs.getD p defaultJob).priority ≠ .High)
      ∧ (q'.jobs.getD p defaultJob).jobId = (mkJob "h2" .High).jobId
      ∧ q'.jobs.length = smallQueue.jobs.length + 1) ∧
    smallQueue.add (mkJob "n2" .Normal) =
      .ok (⟨smallQueue.jobs ++ [(mkJob "n2" .Normal).setQueued smallQueue.jobs.length]⟩,
        smallQueue.jobs.length) :=
  ⟨by decide,
    c5_queue_priority_invariants.2.1 smallQueue (mkJob "h2" .High) (by decide) rfl,
    c5_queue_priority_invariants.2.2 smallQueue (mkJob "n2" .Normal) (by decide) rfl⟩

/- ## Tracks and the result cache (src/daemon/src/cache/tracks.rs)

   Track (src/daemon/src/types/track.rs) with the backend field that
   rpc/methods.rs reads (track.backend); the track.rs under src/ predates
   that field, which spec section 3 lists among the Track entity fields.
   The HashMap of the cache is modelled as an association list; Rust's
   min_by_key returns the first minimal element in iteration order, and
   the embedding's fold does the same.  Instant::now() is an explicit
   `now` argument; runs thread a strictly increasing logical clock. -/

/-- A cached, immutable generated track. -/
structure Track where
  trackId : String
  path : String
  prompt : String
  durationSec : ℚ
  sampleRate : Nat
  seed : Nat
  modelVersion : String
  backend : Backend
  generationTimeSec : ℚ
deriving DecidableEq

/-- A cache slot: the track plus its last access instant. -/
structure CacheEntry where
  track : Track
  lastAccessed : Nat
deriving DecidableEq

/-- TrackCache: tracks keyed by track_id, bounded by max_entries. -/
structure TrackCache where
  tracks : List (String × CacheEntry)
  maxEntries : Nat
deriving DecidableEq

/-- DEFAULT_MAX_ENTRIES from cache/tracks.rs. -/
def DEFAULT_MAX_ENTRIES : Nat := 100

/-- HashMap::contains_key. -/
def containsKey (l : List (String × CacheEntry)) (k : String) : Bool :=
  l.any fun kv => kv.1 == k

/-- HashMap::get (no access-time side effect; the full get is below). -/
def lookupEntry (l : List (String × CacheEntry)) (k : String) :
    Option CacheEntry :=
  (l.find? fun kv => kv.1 == k).map (fun kv => kv.2)

/-- In-place update of the entry under a key (HashMap::get_mut /
HashMap::insert on an existing key). -/
def updateKey (l : List (String × CacheEntry)) (k : String)
    (g : CacheEntry → CacheEntry) : List (String × CacheEntry) :=
  l.map fun kv => if kv.1 == k then (kv.1, g kv.2) else kv

/-- HashMap::insert: replace in place when the key exists, else add. -/
def insertEntry (l : List (String × CacheEntry)) (k : String)
    (e : CacheEntry) : List (String × CacheEntry) :=
  if containsKey l k then updateKey l k (fun _ => e) else l ++ [(k, e)]

/-- iter().min_by_key(last_accessed): the first entry with minimal access
time, if any. -/
def minByAccess : List (String × CacheEntry) →
    Option (String × CacheEntry)
  | [] => none
  | e :: rest =>
    some (rest.foldl
      (fun best x => if x.2.lastAccessed < best.2.lastAccessed then x else best) e)

/-- HashMap::remove of a key. -/
def removeKey (l : List (String × CacheEntry)) (k : String) :
    List (String × CacheEntry) :=
  l.filter fun kv => !(kv.1 == k)

/-- TrackCache::get - return the track under the id, refreshing its access
time to now. -/
def TrackCache.get (c : TrackCache) (id : String) (now : Nat) :
    Option Track × TrackCache :=
  match lookupEntry c.tracks id with
  | some e =>
    (some e.track,
      { c with
        tracks := updateKey c.tracks id fun e' => { e' with lastAccessed := now } })
  | none => (none, c)

/-- TrackCache::evict_lru - remove the entry with the oldest access time. -/
def TrackCache.evictLru (c : TrackCache) : Option Track × TrackCache :=
  match minByAccess c.tracks with
  | none => (none, c)
  | some kv => (some kv.2.track, { c with tracks := removeKey c.tracks kv.1 })

/-- TrackCache::put - evict the LRU entry when at capacity and the key is
new, then insert with access time now. -/
def TrackCache.put (c : TrackCache) (t : Track) (now : Nat) : TrackCache :=
  let c1 :=
    if c.maxEntries ≤ c.tracks.length ∧ containsKey c.tracks t.trackId = false
    then (c.evictLru).2 else c
  { c1 with tracks := insertEntry c1.tracks t.trackId ⟨t, now⟩ }

/-- One cache operation. -/
inductive CacheOp where
  | get : String → CacheOp
  | put : Track → CacheOp

/-- Cache plus the logical clock standing in for Instant::now(). -/
structure CacheState where
  cache : TrackCache
  clock : Nat

/-- Apply one cache operation, ticking the clock. -/
def cacheStep (s : CacheState) : CacheOp → CacheState
  | .get id => { cache := (s.cache.get id s.clock).2, clock := s.clock + 1 }
  | .put t => { cache := s.cache.put t s.clock, clock := s.clock + 1 }

/-- Run cache operations from an empty cache of the given capacity. -/
def runCache (capacity : Nat) (ops : List CacheOp) : CacheState :=
  ops.foldl cacheStep { cache := ⟨[], capacity⟩, clock := 0 }

/-- Well-formedness of a cache at a clock value: keys distinct, access
times below the clock and pairwise distinct. -/
def CacheWf (l : List (String × CacheEntry)) (clock : Nat) : Prop :=
  l.Pairwise (fun a b => a.1 ≠ b.1) ∧
  (∀ e ∈ l, e.2.lastAccessed < clock) ∧
  l.Pairwise (fun a b => a.2.lastAccessed ≠ b.2.lastAccessed)

/- Basic facts about the association-list cache operations. -/

/-- updateKey does not change the length. -/
theorem updateKey_length (l : List (String × CacheEntry)) (k : String)
    (g : CacheEntry → CacheEntry) : (updateKey l k g).length = l.length := by
  simp [updateKey]

/-- Members of an updateKey image come from the original list, keep their
key, and keep their entry or take the updated one. -/
theorem mem_updateKey {l : List (String × CacheEntry)} {k : String}
    {g : CacheEntry → CacheEntry} {y : String × CacheEntry}
    (hy : y ∈ updateKey l k g) :
    ∃ x ∈ l, y.1 = x.1 ∧ (y.2 = x.2 ∨ y.2 = g x.2) := by
  simp only [updateKey, List.mem_map] at hy
  obtain ⟨x, hx, hfx⟩ := hy
  by_cases hk : x.1 == k
  · rw [if_pos hk] at hfx
    exact ⟨x, hx, by rw [← hfx], Or.inr (by rw [← hfx])⟩
  · rw [if_neg hk] at hfx
    exact ⟨x, hx, by rw [← hfx], Or.inl (by rw [← hfx])⟩

/-- The endomorphism applied by updateKey. -/
def updKeyFn (k : String) (g : CacheEntry → CacheEntry)
    (kv : String × CacheEntry) : String × CacheEntry :=
  if kv.1 == k then (kv.1, g kv.2) else kv

/-- updateKey is the map of updKeyFn. -/
theorem updateKey_eq_map (l : List (String × CacheEntry)) (k : String)
    (g : CacheEntry → CacheEntry) : updateKey l k g = l.map (updKeyFn k g) := by
  rfl

/-- updKeyFn never changes the key. -/
theorem updKeyFn_fst (k : String) (g : CacheEntry → CacheEntry)
    (kv : String × CacheEntry) : (updKeyFn k g kv).1 = kv.1 := by
  by_cases hk : (kv.1 == k) = true
  · simp [updKeyFn, hk]
  · simp [updKeyFn, hk]

/-- updateKey of an absent key is the identity. -/
theorem updateKey_of_not_contains {l : List (String × CacheEntry)}
    {k : String} (h : containsKey l k = false)
    (g : CacheEntry → CacheEntry) : updateKey l k g = l := by
  induction l with
  | nil => rfl
  | cons kv t ih =>
    simp only [containsKey, List.any_cons, Bool.or_eq_false_iff] at h
    have ht := ih (by simpa [containsKey] using h.2)
    rw [updateKey_eq_map, List.map_cons]
    rw [updateKey_eq_map] at ht
    rw [ht]
    show (if (kv.1 == k) = true then (kv.1, g kv.2) else kv) :: t = kv :: t
    rw [if_neg (by simp [h.1])]

/-- updateKey preserves key membership. -/
theorem containsKey_updateKey (l : List (String × CacheEntry)) (k k' : String)
    (g : CacheEntry → CacheEntry) :
    containsKey (updateKey l k g) k' = containsKey l k' := by
  rw [updateKey_eq_map, containsKey, List.any_map]
  have hpred : ((fun kv : String × CacheEntry => kv.1 == k') ∘ updKeyFn k g) =
      (fun kv : String × CacheEntry => kv.1 == k') := by
    funext kv
    simp [Function.comp, updKeyFn_fst]
  rw [hpred]
  rfl

/-- lookupEntry after updateKey, in closed form. -/
theorem lookup_updateKey (l : List (String × CacheEntry)) (k k' : String)
    (g : CacheEntry → CacheEntry) :
    lookupEntry (updateKey l k g) k' =
      (l.find? fun kv => kv.1 == k').map
        (fun kv => if (kv.1 == k) = true then g kv.2 else kv.2) := by
  rw [lookupEntry, updateKey_eq_map, List.find?_map]
  have hpred : ((fun kv : String × CacheEntry => kv.1 == k') ∘ updKeyFn k g) =
      (fun kv : String × CacheEntry => kv.1 == k') := by
    funext kv
    simp [Function.comp, updKeyFn_fst]
  rw [hpred, Option.map_map]
  congr 1
  funext kv
  by_cases hk : (kv.1 == k) = true
  · simp [Function.comp, updKeyFn, hk]
  · simp [Function.comp, updKeyFn, hk]

/-- Finding the updated key returns the updated entry. -/
theorem lookup_updateKey_self {l : List (String × CacheEntry)} {k : String}
    {e : CacheEntry} (g : CacheEntry → CacheEntry)
    (h : lookupEntry l k = some e) :
    lookupEntry (updateKey l k g) k = some (g e) := by
  rw [lookup_updateKey]
  cases hf : l.find? (fun kv => kv.1 == k) with
  | none =>
    rw [lookupEntry, hf] at h
    cases h
  | some kv =>
    have hpk := List.find?_some hf
    rw [lookupEntry, hf] at h
    simp only [Option.map_some'] at h ⊢
    rw [if_pos hpk, show kv.2 = e from by injection h]

/-- Finding another key is unaffected by updateKey. -/
theorem lookup_updateKey_ne {l : List (String × CacheEntry)} {k k' : String}
    (hne : k' ≠ k) (g : CacheEntry → CacheEntry) :
    lookupEntry (updateKey l k g) k' = lookupEntry l k' := by
  rw [lookup_updateKey, lookupEntry]
  cases hf : l.find? (fun kv => kv.1 == k') with
  | none => rfl
  | some kv =>
    have hpk := List.find?_some hf
    have hk1 : kv.1 = k' := by simpa using hpk
    simp only [Option.map_some']
    rw [if_neg]
    simp [hk1, hne]

/-- A contained key has an entry. -/
theorem containsKey_iff_lookup (l : List (String × CacheEntry)) (k : String) :
    containsKey l k = true ↔ ∃ e, lookupEntry l k = some e := by
  induction l with
  | nil => simp [containsKey, lookupEntry]
  | cons kv t ih =>
    cases hk : kv.1 == k with
    | true => simp [containsKey, lookupEntry, List.any_cons, List.find?_cons, hk]
    | false =>
      simp only [containsKey, lookupEntry, List.any_cons, List.find?_cons, hk] at ih ⊢
      simpa using ih

/-- Key membership in a singleton append. -/
theorem containsKey_append_single (l : List (String × CacheEntry))
    (k k' : String) (e : CacheEntry) :
    containsKey (l ++ [(k, e)]) k' = true ↔
      containsKey l k' = true ∨ k' = k := by
  simp only [containsKey, List.any_append, List.any_cons, List.any_nil,
    Bool.or_eq_true]
  constructor
  · rintro (h | h)
    · exact Or.inl h
    · simp at h
      exact Or.inr h.symm
  · rintro (h | rfl)
    · exact Or.inl h
    · right
      simp

/-- Key membership after removing a key. -/
theorem containsKey_removeKey (l : List (String × CacheEntry)) (k k' : String) :
    containsKey (removeKey l k) k' = true ↔
      containsKey l k' = true ∧ k' ≠ k := by
  simp only [containsKey, removeKey, List.any_eq_true, List.mem_filter]
  constructor
  · rintro ⟨x, ⟨hx, hxk⟩, hxk'⟩
    have h1 : x.1 = k' := by simpa using hxk'
    have h2 : x.1 ≠ k := by simpa using hxk
    exact ⟨⟨x, hx, hxk'⟩, by rw [← h1]; exact h2⟩
  · rintro ⟨⟨x, hx, hxk'⟩, hne⟩
    have h1 : x.1 = k' := by simpa using hxk'
    exact ⟨x, ⟨hx, by simp [h1, hne]⟩, hxk'⟩

/-- Removing the key of a member strictly shrinks the list. -/
theorem removeKey_length_lt {l : List (String × CacheEntry)}
    {x : String × CacheEntry} (hx : x ∈ l) :
    (removeKey l x.1).length < l.length := by
  induction l with
  | nil => cases hx
  | cons kv t ih =>
    rcases List.mem_cons.mp hx with rfl | hxt
    · simp only [removeKey, List.filter_cons]
      rw [if_neg (by simp)]
      have := List.length_filter_le (fun kv => !(kv.1 == x.1)) t
      simp only [List.length_cons]
      omega
    · simp only [removeKey, List.filter_cons] at ih ⊢
      have hrec := ih hxt
      cases hkv : (!(kv.1 == x.1)) with
      | true =>
        rw [if_pos rfl]
        simp only [List.length_cons]
        omega
      | false =>
        rw [if_neg (by simp)]
        have := List.length_filter_le (fun kv => !(kv.1 == x.1)) t
        simp only [List.length_cons]
        omega

/-- The foldl of the LRU scan stays within the candidate pool. -/
theorem foldlMin_mem :
    ∀ (rest : List (String × CacheEntry)) (e : String × CacheEntry),
      rest.foldl (fun best x =>
        if x.2.lastAccessed < best.2.lastAccessed then x else best) e ∈ e :: rest := by
  intro rest
  induction rest with
  | nil => intro e; simp
  | cons x t ih =>
    intro e
    simp only [List.foldl_cons]
    rcases List.mem_cons.mp (ih (if x.2.lastAccessed < e.2.lastAccessed then x else e)) with
      h | h
    · rw [h]
      by_cases hc : x.2.lastAccessed < e.2.lastAccessed
      · simp [hc]
      · simp [hc]
    · simp [h]

/-- The foldl of the LRU scan is a lower bound on access times. -/
theorem foldlMin_le :
    ∀ (rest : List (String × CacheEntry)) (e y : String × CacheEntry),
      y ∈ e :: rest →
      (rest.foldl (fun best x =>
        if x.2.lastAccessed < best.2.lastAccessed then x else best)
          e).2.lastAccessed ≤ y.2.lastAccessed := by
  intro rest
  induction rest with
  | nil =>
    intro e y hy
    simp at hy
    simp [hy]
  | cons x t ih =>
    intro e y hy
    simp only [List.foldl_cons]
    have hstart1 : (if x.2.lastAccessed < e.2.lastAccessed then x
        else e).2.lastAccessed ≤ e.2.lastAccessed := by
      by_cases hc : x.2.lastAccessed < e.2.lastAccessed
      · rw [if_pos hc]
        omega
      · rw [if_neg hc]
    have hstart2 : (if x.2.lastAccessed < e.2.lastAccessed then x
        else e).2.lastAccessed ≤ x.2.lastAccessed := by
      by_cases hc : x.2.lastAccessed < e.2.lastAccessed
      · rw [if_pos hc]
      · rw [if_neg hc]
        omega
    have hmin := ih (if x.2.lastAccessed < e.2.lastAccessed then x else e) _
      (List.mem_cons_self _ _)
    rcases List.mem_cons.mp hy with h | hy'
    · rw [h]
      omega
    · rcases List.mem_cons.mp hy' with h | hyt
      · rw [h]
        omega
      · exact ih _ y (List.mem_cons_of_mem _ hyt)

/-- minByAccess returns a member. -/
theorem minByAccess_mem {l : List (String × CacheEntry)}
    {x : String × CacheEntry} (h : minByAccess l = some x) : x ∈ l := by
  cases l with
  | nil => cases h
  | cons e rest =>
    simp only [minByAccess, Option.some.injEq] at h
    rw [← h]
    exact foldlMin_mem rest e

/-- minByAccess returns a minimum of the access times. -/
theorem minByAccess_le {l : List (String × CacheEntry)}
    {x : String × CacheEntry} (h : minByAccess l = some x) :
    ∀ y ∈ l, x.2.lastAccessed ≤ y.2.lastAccessed := by
  intro y hy
  cases l with
  | nil => cases h
  | cons e rest =>
    simp only [minByAccess, Option.some.injEq] at h
    rw [← h]
    exact foldlMin_le rest e y hy

/-- Members of an updateKey image, with the exact update case split. -/
theorem mem_updateKey' {l : List (String × CacheEntry)} {k : String}
    {g : CacheEntry → CacheEntry} {y : String × CacheEntry}
    (hy : y ∈ updateKey l k g) :
    ∃ x ∈ l, ((x.1 == k) = true ∧ y = (x.1, g x.2)) ∨
      ((x.1 == k) = false ∧ y = x) := by
  rw [updateKey_eq_map] at hy
  simp only [List.mem_map] at hy
  obtain ⟨x, hx, hfx⟩ := hy
  cases hk : (x.1 == k) with
  | true =>
    refine ⟨x, hx, Or.inl ⟨hk, ?_⟩⟩
    rw [← hfx, updKeyFn, if_pos hk]
  | false =>
    refine ⟨x, hx, Or.inr ⟨hk, ?_⟩⟩
    rw [← hfx, updKeyFn, if_neg (by simp [hk])]

/-- Well-formedness is monotone in the clock. -/
theorem CacheWf.mono {l : List (String × CacheEntry)} {clock : Nat}
    (h : CacheWf l clock) : CacheWf l (clock + 1) :=
  ⟨h.1, fun e he => Nat.lt_succ_of_lt (h.2.1 e he), h.2.2⟩

/-- Updating one key to a fresh access time preserves well-formedness at the
next clock tick. -/
theorem wf_updateKey_fresh {clock : Nat} {k : String}
    {g : CacheEntry → CacheEntry} (hg : ∀ e, (g e).lastAccessed = clock) :
    ∀ l : List (String × CacheEntry),
      CacheWf l clock → CacheWf (updateKey l k g) (clock + 1) := by
  intro l
  induction l with
  | nil =>
    intro _
    exact ⟨List.Pairwise.nil, by simp [updateKey], List.Pairwise.nil⟩
  | cons kv t ih =>
    intro h
    obtain ⟨hkeys, htimes, htdist⟩ := h
    rw [List.pairwise_cons] at hkeys htdist
    have htt : ∀ e ∈ t, e.2.lastAccessed < clock :=
      fun e he => htimes e (List.mem_cons_of_mem _ he)
    obtain ⟨ikeys, itimes, itdist⟩ := ih ⟨hkeys.2, htt, htdist.2⟩
    rw [updateKey_eq_map, List.map_cons, ← updateKey_eq_map]
    refine ⟨List.pairwise_cons.mpr ⟨?_, ikeys⟩, ?_,
      List.pairwise_cons.mpr ⟨?_, itdist⟩⟩
    · intro y hy
      rw [updKeyFn_fst]
      obtain ⟨x, hx, hcase⟩ := mem_updateKey' hy
      have hy1 : y.1 = x.1 := by
        rcases hcase with ⟨_, rfl⟩ | ⟨_, rfl⟩ <;> rfl
      rw [hy1]
      exact hkeys.1 x hx
    · intro e he
      rcases List.mem_cons.mp he with rfl | het
      · by_cases hk : (kv.1 == k) = true
        · have : (updKeyFn k g kv).2.lastAccessed = clock := by
            simp [updKeyFn, hk, hg]
          omega
        · have : (updKeyFn k g kv).2.lastAccessed = kv.2.lastAccessed := by
            simp [updKeyFn, hk]
          have h2 := htimes kv (List.mem_cons_self _ _)
          omega
      · exact itimes e het
    · intro y hy
      obtain ⟨x, hx, hcase⟩ := mem_updateKey' hy
      by_cases hk : (kv.1 == k) = true
      · have hhead : (updKeyFn k g kv).2.lastAccessed = clock := by
          simp [updKeyFn, hk, hg]
        rcases hcase with ⟨hxk, hyx⟩ | ⟨hxk, hyx⟩
        · exfalso
          apply hkeys.1 x hx
          have h1 : kv.1 = k := by simpa using hk
          have h2 : x.1 = k := by simpa using hxk
          rw [h1, h2]
        · rw [hhead, hyx]
          have := htt x hx
          omega
      · have hhead : (updKeyFn k g kv).2.lastAccessed = kv.2.lastAccessed := by
          simp [updKeyFn, hk]
        rcases hcase with ⟨hxk, hyx⟩ | ⟨hxk, hyx⟩
        · rw [hhead, hyx]
          show kv.2.lastAccessed ≠ (g x.2).lastAccessed
          rw [hg]
          have := htimes kv (List.mem_cons_self _ _)
          omega
        · rw [hhead, hyx]
          exact htdist.1 x hx

/-- Appending a fresh entry under a new key preserves well-formedness at the
next clock tick. -/
theorem wf_append_fresh {l : List (String × CacheEntry)} {clock : Nat}
    {k : String} {e : CacheEntry} (h : CacheWf l clock)
    (hk : containsKey l k = false) (he : e.lastAccessed = clock) :
    CacheWf (l ++ [(k, e)]) (clock + 1) := by
  obtain ⟨hkeys, htimes, htdist⟩ := h
  have hnk : ∀ x ∈ l, x.1 ≠ k := by
    intro x hx hcon
    have hc : containsKey l k = true := by
      simp only [containsKey, List.any_eq_true]
      exact ⟨x, hx, by simp [hcon]⟩
    rw [hc] at hk
    cases hk
  refine ⟨?_, ?_, ?_⟩
  · rw [List.pairwise_append]
    refine ⟨hkeys, by simp, ?_⟩
    intro a ha b hb
    simp only [List.mem_singleton] at hb
    rw [hb]
    exact hnk a ha
  · intro x hx
    rcases List.mem_append.mp hx with hxl | hxr
    · exact Nat.lt_succ_of_lt (htimes x hxl)
    · simp only [List.mem_singleton] at hxr
      rw [hxr]
      simp [he]
  · rw [List.pairwise_append]
    refine ⟨htdist, by simp, ?_⟩
    intro a ha b hb
    simp only [List.mem_singleton] at hb
    rw [hb]
    show a.2.lastAccessed ≠ e.lastAccessed
    rw [he]
    have := htimes a ha
    omega

/-- Filtering preserves well-formedness. -/
theorem wf_filter {l : List (String × CacheEntry)} {clock : Nat}
    {p : String × CacheEntry → Bool} (h : CacheWf l clock) :
    CacheWf (l.filter p) clock :=
  ⟨List.Pairwise.sublist (List.filter_sublist l) h.1,
    fun e he => h.2.1 e (List.mem_of_mem_filter he),
    List.Pairwise.sublist (List.filter_sublist l) h.2.2⟩

/-- insertEntry with a fresh access time preserves well-formedness at the
next clock tick. -/
theorem wf_insertEntry {l : List (String × CacheEntry)} {clock : Nat}
    {k : String} {e : CacheEntry} (he : e.lastAccessed = clock)
    (h : CacheWf l clock) : CacheWf (insertEntry l k e) (clock + 1) := by
  rw [insertEntry]
  cases hc : containsKey l k with
  | true =>
    rw [if_pos rfl]
    exact wf_updateKey_fresh (fun _ => he) l h
  | false =>
    rw [if_neg (by simp)]
    exact wf_append_fresh h hc he

/-- Eviction preserves well-formedness. -/
theorem wf_evict {c : TrackCache} {clock : Nat}
    (h : CacheWf c.tracks clock) :
    CacheWf ((c.evictLru).2).tracks clock := by
  rw [TrackCache.evictLru]
  cases hm : minByAccess c.tracks with
  | none => exact h
  | some kv => exact wf_filter h

/-- Eviction keeps the capacity field. -/
theorem evict_max (c : TrackCache) :
    ((c.evictLru).2).maxEntries = c.maxEntries := by
  rw [TrackCache.evictLru]
  cases hm : minByAccess c.tracks with
  | none => rfl
  | some kv => rfl

/-- A cache step preserves well-formedness relative to the ticking clock. -/
theorem cacheStep_wf (s : CacheState) (op : CacheOp)
    (h : CacheWf s.cache.tracks s.clock) :
    CacheWf ((cacheStep s op).cache.tracks) ((cacheStep s op).clock) := by
  cases op with
  | get id =>
    cases hl : lookupEntry s.cache.tracks id with
    | none =>
      simp only [cacheStep, TrackCache.get, hl]
      exact h.mono
    | some e =>
      simp only [cacheStep, TrackCache.get, hl]
      exact @wf_updateKey_fresh s.clock id
        (fun e' => { e' with lastAccessed := s.clock }) (fun e' => rfl)
        s.cache.tracks h
  | put t =>
    show CacheWf ((s.cache.put t s.clock).tracks) (s.clock + 1)
    rw [TrackCache.put]
    by_cases hcond : s.cache.maxEntries ≤ s.cache.tracks.length ∧
        containsKey s.cache.tracks t.trackId = false
    · rw [if_pos hcond]
      exact wf_insertEntry rfl (wf_evict h)
    · rw [if_neg hcond]
      exact wf_insertEntry rfl h

/-- insertEntry adds at most one entry. -/
theorem insertEntry_len_le (l : List (String × CacheEntry)) (k : String)
    (e : CacheEntry) : (insertEntry l k e).length ≤ l.length + 1 := by
  rw [insertEntry]
  cases hc : containsKey l k with
  | true =>
    rw [if_pos rfl, updateKey_length]
    omega
  | false =>
    rw [if_neg (by simp)]
    simp

/-- insertEntry on a present key keeps the length. -/
theorem insertEntry_len_contains (l : List (String × CacheEntry)) (k : String)
    (e : CacheEntry) (h : containsKey l k = true) :
    (insertEntry l k e).length = l.length := by
  rw [insertEntry, if_pos h, updateKey_length]

/-- A cache step keeps the capacity field. -/
theorem cacheStep_max (s : CacheState) (op : CacheOp) :
    (cacheStep s op).cache.maxEntries = s.cache.maxEntries := by
  cases op with
  | get id =>
    cases hl : lookupEntry s.cache.tracks id with
    | none => simp only [cacheStep, TrackCache.get, hl]
    | some e => simp only [cacheStep, TrackCache.get, hl]
  | put t =>
    show ((s.cache.put t s.clock)).maxEntries = _
    rw [TrackCache.put]
    by_cases hcond : s.cache.maxEntries ≤ s.cache.tracks.length ∧
        containsKey s.cache.tracks t.trackId = false
    · rw [if_pos hcond]
      show ((s.cache.evictLru).2).maxEntries = _
      exact evict_max s.cache
    · rw [if_neg hcond]

/-- A cache step keeps the entry count within a positive capacity. -/
theorem cacheStep_len (s : CacheState) (op : CacheOp)
    (hcap : 1 ≤ s.cache.maxEntries)
    (h : s.cache.tracks.length ≤ s.cache.maxEntries) :
    (cacheStep s op).cache.tracks.length ≤ s.cache.maxEntries := by
  cases op with
  | get id =>
    cases hl : lookupEntry s.cache.tracks id with
    | none =>
      simp only [cacheStep, TrackCache.get, hl]
      exact h
    | some e =>
      simp only [cacheStep, TrackCache.get, hl]
      rw [updateKey_length]
      exact h
  | put t =>
    show ((s.cache.put t s.clock)).tracks.length ≤ _
    rw [TrackCache.put]
    by_cases hcond : s.cache.maxEntries ≤ s.cache.tracks.length ∧
        containsKey s.cache.tracks t.trackId = false
    · rw [if_pos hcond]
      have hfull : s.cache.tracks.length = s.cache.maxEntries := by omega
      have hne : s.cache.tracks ≠ [] := by
        intro hnil
        rw [hnil] at hfull
        simp at hfull
        omega
      obtain ⟨kv, hm⟩ : ∃ kv, minByAccess s.cache.tracks = some kv := by
        cases hl : s.cache.tracks with
        | nil => exact absurd hl hne
        | cons a rest => exact ⟨_, rfl⟩
      have hlt : (removeKey s.cache.tracks kv.1).length <
          s.cache.tracks.length :=
        removeKey_length_lt (minByAccess_mem hm)
      have hev : ((s.cache.evictLru).2).tracks =
          removeKey s.cache.tracks kv.1 := by
        rw [TrackCache.evictLru, hm]
      show (insertEntry ((s.cache.evictLru).2).tracks t.trackId
        ⟨t, s.clock⟩).length ≤ s.cache.maxEntries
      rw [hev]
      have hins := insertEntry_len_le (removeKey s.cache.tracks kv.1)
        t.trackId ⟨t, s.clock⟩
      omega
    · rw [if_neg hcond]
      show (insertEntry s.cache.tracks t.trackId ⟨t, s.clock⟩).length ≤
        s.cache.maxEntries
      rcases Decidable.not_and_iff_or_not.mp hcond with hlen | hcont
      · have hins := insertEntry_len_le s.cache.tracks t.trackId ⟨t, s.clock⟩
        omega
      · have hc : containsKey s.cache.tracks t.trackId = true := by
          cases hcc : containsKey s.cache.tracks t.trackId with
          | true => rfl
          | false => exact absurd hcc hcont
        rw [insertEntry_len_contains _ _ _ hc]
        exact h

/-- The run-level cache invariant. -/
def CacheInv (s : CacheState) : Prop :=
  CacheWf s.cache.tracks s.clock ∧
  s.cache.tracks.length ≤ s.cache.maxEntries

/-- Any run from the empty cache with a positive capacity is well-formed,
within capacity, and keeps the capacity. -/
theorem runCache_inv (C : Nat) (hC : 1 ≤ C) (ops : List CacheOp) :
    CacheInv (runCache C ops) ∧ (runCache C ops).cache.maxEntries = C := by
  suffices h : ∀ (os : List CacheOp) (s : CacheState), CacheInv s →
      s.cache.maxEntries = C →
      CacheInv (os.foldl cacheStep s) ∧
        (os.foldl cacheStep s).cache.maxEntries = C by
    refine h ops { cache := ⟨[], C⟩, clock := 0 } ?_ rfl
    exact ⟨⟨List.Pairwise.nil, by simp, List.Pairwise.nil⟩, by simp⟩
  intro os
  induction os with
  | nil => intro s hs hmax; exact ⟨hs, hmax⟩
  | cons o rest ih =>
    intro s hs hmax
    apply ih
    · constructor
      · exact cacheStep_wf s o hs.1
      · rw [cacheStep_max]
        exact cacheStep_len s o (by rw [hmax]; exact hC) hs.2
    · rw [cacheStep_max, hmax]

/-- C6: with capacity C >= 1 the entry count never exceeds C; a put of a new
key while at capacity first evicts exactly the entry whose last_accessed is
oldest; a put of an existing key overwrites it in place without eviction and
refreshes its timestamp; and get updates the last_accessed of the entry it
returns. -/
theorem c6_trackCache_contract :
    (∀ (C : Nat) (ops : List CacheOp), 1 ≤ C →
      (runCache C ops).cache.tracks.length ≤ C)
    ∧ (∀ (c : TrackCache) (t : Track) (now : Nat),
        CacheWf c.tracks now →
        c.maxEntries ≤ c.tracks.length → 1 ≤ c.maxEntries →
        containsKey c.tracks t.trackId = false →
        ∃ old, minByAccess c.tracks = some old
          ∧ old ∈ c.tracks
          ∧ (∀ y ∈ c.tracks, y ≠ old →
              old.2.lastAccessed < y.2.lastAccessed)
          ∧ (∀ k, containsKey (c.put t now).tracks k = true ↔
              (k = t.trackId ∨
                (containsKey c.tracks k = true ∧ k ≠ old.1))))
    ∧ (∀ (c : TrackCache) (t : Track) (now : Nat),
        containsKey c.tracks t.trackId = true →
        (c.put t now).tracks.length = c.tracks.length
        ∧ lookupEntry (c.put t now).tracks t.trackId = some ⟨t, now⟩
        ∧ (∀ k, k ≠ t.trackId →
            lookupEntry (c.put t now).tracks k = lookupEntry c.tracks k))
    ∧ (∀ (c : TrackCache) (id : String) (now : Nat) (e : CacheEntry),
        lookupEntry c.tracks id = some e →
        (c.get id now).1 = some e.track
        ∧ lookupEntry ((c.get id now).2).tracks id =
            some { e with lastAccessed := now }
        ∧ (∀ k, k ≠ id →
            lookupEntry ((c.get id now).2).tracks k =
              lookupEntry c.tracks k)) := by
  refine ⟨?_, ?_, ?_, ?_⟩
  · intro C ops hC
    have h := runCache_inv C hC ops
    have h2 := h.1.2
    rw [h.2] at h2
    exact h2
  · intro c t now hwf hfull hcap hnew
    have hne : c.tracks ≠ [] := by
      intro h0
      rw [h0] at hfull
      simp at hfull
      omega
    obtain ⟨old, hm⟩ : ∃ kv, minByAccess c.tracks = some kv := by
      cases hl : c.tracks with
      | nil => exact absurd hl hne
      | cons a rest => exact ⟨_, rfl⟩
    have hmem := minByAccess_mem hm
    refine ⟨old, hm, hmem, ?_, ?_⟩
    · intro y hy hyne
      have hle := minByAccess_le hm y hy
      have hnee : old.2.lastAccessed ≠ y.2.lastAccessed :=
        List.Pairwise.forall (fun a b hab => hab.symm) hwf.2.2 hmem hy
          (fun he => hyne he.symm)
      omega
    · have hcf : containsKey (removeKey c.tracks old.1) t.trackId = false := by
        cases hcc : containsKey (removeKey c.tracks old.1) t.trackId with
        | false => rfl
        | true =>
          have h2 := (containsKey_removeKey _ _ _).mp hcc
          rw [hnew] at h2
          cases h2.1
      have hput : (c.put t now).tracks =
          (removeKey c.tracks old.1) ++ [(t.trackId, ⟨t, now⟩)] := by
        rw [TrackCache.put, if_pos ⟨hfull, hnew⟩]
        have hev : ((c.evictLru).2).tracks = removeKey c.tracks old.1 := by
          rw [TrackCache.evictLru, hm]
        show insertEntry ((c.evictLru).2).tracks t.trackId ⟨t, now⟩ = _
        rw [hev, insertEntry, if_neg (by simp [hcf])]
      intro k
      rw [hput]
      constructor
      · intro h
        rcases (containsKey_append_single _ _ _ _).mp h with h1 | h1
        · exact Or.inr ((containsKey_removeKey _ _ _).mp h1)
        · exact Or.inl h1
      · intro h
        apply (containsKey_append_single _ _ _ _).mpr
        rcases h with h1 | h1
        · exact Or.inr h1
        · exact Or.inl ((containsKey_removeKey _ _ _).mpr h1)
  · intro c t now hcont
    have hcond : ¬(c.maxEntries ≤ c.tracks.length ∧
        containsKey c.tracks t.trackId = false) := by
      rintro ⟨_, hf⟩
      rw [hcont] at hf
      cases hf
    have hput : (c.put t now).tracks =
        updateKey c.tracks t.trackId (fun _ => ⟨t, now⟩) := by
      rw [TrackCache.put, if_neg hcond]
      show insertEntry c.tracks t.trackId ⟨t, now⟩ = _
      rw [insertEntry, if_pos hcont]
    refine ⟨?_, ?_, ?_⟩
    · rw [hput, updateKey_length]
    · obtain ⟨e0, he0⟩ := (containsKey_iff_lookup _ _).mp hcont
      rw [hput]
      exact lookup_updateKey_self _ he0
    · intro k hk
      rw [hput]
      exact lookup_updateKey_ne hk _
  · intro c id now e hl
    have hget : c.get id now = (some e.track,
        { c with
          tracks := updateKey c.tracks id
            fun e' => { e' with lastAccessed := now } }) := by
      rw [TrackCache.get, hl]
    refine ⟨?_, ?_, ?_⟩
    · rw [hget]
    · rw [hget]
      show lookupEntry (updateKey c.tracks id
        fun e' => { e' with lastAccessed := now }) id =
          some { e with lastAccessed := now }
      exact lookup_updateKey_self _ hl
    · intro k hk
      rw [hget]
      show lookupEntry (updateKey c.tracks id
        fun e' => { e' with lastAccessed := now }) k = lookupEntry c.tracks k
      exact lookup_updateKey_ne hk _

/-- A concrete track for the cache witness. -/
def mkTrack (id : String) (seedv : Nat) : Track :=
  ⟨id, id ++ ".wav", "lofi beats", 30, 32000, seedv, "v1", .MusicGen, 1⟩

/-- A two-entry cache at capacity 2 with distinct access times. -/
def c6Cache : TrackCache :=
  ⟨[("a", ⟨mkTrack "a" 1, 0⟩), ("b", ⟨mkTrack "b" 2, 1⟩)], 2⟩

/-- Witness for c6_trackCache_contract: a put of the new key "c" into the
full two-entry cache evicts exactly the oldest entry "a". -/
theorem c6_trackCache_contract_witness :
    (CacheWf c6Cache.tracks 2 ∧ c6Cache.maxEntries ≤ c6Cache.tracks.length ∧
      1 ≤ c6Cache.maxEntries ∧
      containsKey c6Cache.tracks (mkTrack "c" 3).trackId = false) ∧
    (∃ old, minByAccess c6Cache.tracks = some old
      ∧ old ∈ c6Cache.tracks
      ∧ (∀ y ∈ c6Cache.tracks, y ≠ old →
          old.2.lastAccessed < y.2.lastAccessed)
      ∧ (∀ k, containsKey (c6Cache.put (mkTrack "c" 3) 2).tracks k = true ↔
          (k = (mkTrack "c" 3).trackId ∨
            (containsKey c6Cache.tracks k = true ∧ k ≠ old.1)))) :=
  ⟨⟨⟨by decide, by decide, by decide⟩, by decide, by decide, by decide⟩,
    c6_trackCache_contract.2.1 c6Cache (mkTrack "c" 3) 2
      ⟨by decide, by decide, by decide⟩ (by decide) (by decide) (by decide)⟩

/- ## Flow-matching sigma schedule
   (src/daemon/src/models/ace_step/scheduler.rs)

   compute_flow_matching_schedule computes in f32; the embedding carries the
   same formulas in exact rational arithmetic. -/

/-- The shift map applied to t: shift * t / (1 + (shift - 1) * t). -/
def shiftSigma (shift t : ℚ) : ℚ := shift * t / (1 + (shift - 1) * t)

/-- The sigma list of compute_flow_matching_schedule: for i < num_steps the
shifted value at t = 1 - i/num_steps, then a final 0. -/
def scheduleSigmas (numSteps : Nat) (shift : ℚ) : List ℚ :=
  ((List.range numSteps).map fun i : Nat =>
    shiftSigma shift (1 - (i : ℚ) / (numSteps : ℚ))) ++ [0]

/-- The timestep list of compute_flow_matching_schedule: the first num_steps
sigmas times 1000. -/
def scheduleTimesteps (numSteps : Nat) (shift : ℚ) : List ℚ :=
  ((scheduleSigmas numSteps shift).take numSteps).map fun s => s * 1000

/-- getD of an appended singleton at the length index. -/
theorem getD_append_len {α : Type} (l : List α) (x d : α) :
    (l ++ [x]).getD l.length d = x := by
  have h := getD_append_right l [x] 0 d
  rw [Nat.add_zero] at h
  exact h

/-- getD inside a take, below the cut. -/
theorem getD_take_of_lt {α : Type} :
    ∀ (l : List α) (n i : Nat) (d : α), i < n →
      (l.take n).getD i d = l.getD i d := by
  intro l
  induction l with
  | nil => intro n i d _; simp
  | cons a t ih =>
    intro n i d hi
    cases n with
    | zero => cases hi
    | succ m =>
      cases i with
      | zero => rfl
      | succ j =>
        simp only [List.take_succ_cons, List.getD_cons_succ]
        exact ih m j d (Nat.lt_of_succ_lt_succ hi)

/-- The sigma-list entry below the terminal. -/
theorem scheduleSigmas_getD_lt (numSteps : Nat) (shift : ℚ) (i : Nat)
    (h : i < numSteps) :
    (scheduleSigmas numSteps shift).getD i 0 =
      shiftSigma shift (1 - (i : ℚ) / (numSteps : ℚ)) := by
  rw [scheduleSigmas, getD_append_left _ _ _ _ (by simpa using h),
    List.getD_eq_getElem?_getD, List.getElem?_map, List.getElem?_range h]
  rfl

/-- The shift map with shift 3 is strictly monotone on nonnegative inputs. -/
theorem shiftSigma3_strictMono {t1 t2 : ℚ} (h0 : 0 ≤ t2) (h : t2 < t1) :
    shiftSigma 3 t2 < shiftSigma 3 t1 := by
  rw [shiftSigma, shiftSigma]
  have hd2 : (0:ℚ) < 1 + (3 - 1) * t2 := by nlinarith
  have hd1 : (0:ℚ) < 1 + (3 - 1) * t1 := by nlinarith
  rw [div_lt_div_iff₀ hd2 hd1]
  nlinarith

/-- The shift map with shift 3 is positive on positive inputs. -/
theorem shiftSigma3_pos {t : ℚ} (h : 0 < t) : 0 < shiftSigma 3 t := by
  rw [shiftSigma]
  apply div_pos
  · nlinarith
  · nlinarith

/-- C7: for N >= 1 and shift 3 the schedule has N + 1 sigmas with
sigma_i = 3t/(1 + (3-1)t) at t = 1 - i/N for i < N and sigma_N = 0;
sigma_0 = 1; the sigmas strictly decrease; and timestep_i = sigma_i * 1000
for i < N. -/
theorem c7_flowMatchingSchedule (N : Nat) (hN : 1 ≤ N) :
    (scheduleSigmas N 3).length = N + 1
    ∧ (∀ i, i < N → (scheduleSigmas N 3).getD i 0 =
        3 * (1 - (i : ℚ) / (N : ℚ)) / (1 + (3 - 1) * (1 - (i : ℚ) / (N : ℚ))))
    ∧ (scheduleSigmas N 3).getD N 0 = 0
    ∧ (scheduleSigmas N 3).getD 0 0 = 1
    ∧ (∀ i j, i < j → j ≤ N →
        (scheduleSigmas N 3).getD j 0 < (scheduleSigmas N 3).getD i 0)
    ∧ (scheduleTimesteps N 3).length = N
    ∧ (∀ i, i < N → (scheduleTimesteps N 3).getD i 0 =
        (scheduleSigmas N 3).getD i 0 * 1000) := by
  have hN0 : (0:ℚ) < (N:ℚ) := by
    have : (1:ℚ) ≤ (N:ℚ) := by exact_mod_cast hN
    linarith
  have ht_pos : ∀ i, i < N → (0:ℚ) < 1 - (i:ℚ) / (N:ℚ) := by
    intro i hi
    have hc : (i:ℚ) < (N:ℚ) := by exact_mod_cast hi
    have := (div_lt_one hN0).mpr hc
    linarith
  have ht_nonneg : ∀ j, j ≤ N → (0:ℚ) ≤ 1 - (j:ℚ) / (N:ℚ) := by
    intro j hj
    have hc : (j:ℚ) ≤ (N:ℚ) := by exact_mod_cast hj
    have : (j:ℚ) / (N:ℚ) ≤ 1 := by
      rw [div_le_one hN0]
      exact hc
    linarith
  have hterm : (scheduleSigmas N 3).getD N 0 = 0 := by
    rw [scheduleSigmas]
    have h := getD_append_len ((List.range N).map fun i : Nat =>
      shiftSigma 3 (1 - (i : ℚ) / (N : ℚ))) (0:ℚ) 0
    rw [List.length_map, List.length_range] at h
    exact h
  refine ⟨by simp [scheduleSigmas], ?_, hterm, ?_, ?_, ?_, ?_⟩
  · intro i hi
    rw [scheduleSigmas_getD_lt N 3 i hi, shiftSigma]
  · rw [scheduleSigmas_getD_lt N 3 0 (by omega), shiftSigma]
    push_cast
    rw [zero_div]
    norm_num
  · intro i j hij hjN
    have hiN : i < N := by omega
    rcases Nat.lt_or_ge j N with hjlt | hjge
    · rw [scheduleSigmas_getD_lt N 3 i hiN, scheduleSigmas_getD_lt N 3 j hjlt]
      apply shiftSigma3_strictMono (ht_nonneg j (by omega))
      have hc : (i:ℚ) < (j:ℚ) := by exact_mod_cast hij
      have := (div_lt_div_iff_of_pos_right hN0).mpr hc
      linarith
    · have hjN' : j = N := by omega
      rw [hjN', hterm, scheduleSigmas_getD_lt N 3 i hiN]
      exact shiftSigma3_pos (ht_pos i hiN)
  · rw [scheduleTimesteps]
    simp [scheduleSigmas]
  · intro i hi
    rw [scheduleTimesteps]
    have h := getD_map_apply (fun s : ℚ => s * 1000)
      ((scheduleSigmas N 3).take N) i 0
    rw [zero_mul] at h
    rw [h, getD_take_of_lt _ _ _ _ hi]

/-- Witness for c7_flowMatchingSchedule at N = 4: the schedule starts at 1
and terminates at 0. -/
theorem c7_flowMatchingSchedule_witness :
    1 ≤ 4 ∧ (scheduleSigmas 4 3).getD 0 0 = 1 ∧
      (scheduleSigmas 4 3).getD 4 0 = 0 :=
  ⟨by decide,
    (c7_flowMatchingSchedule 4 (by decide)).2.2.2.1,
    (c7_flowMatchingSchedule 4 (by decide)).2.2.1⟩

/- ## PingPong scheduler (scheduler.rs, FlowMatchPingPongScheduler)

   Latents (ndarray Array4 of f32) are modelled as flat rational lists; the
   scheduler acts element-wise and generate_noise_like fills the flattened
   shape in order.  The ChaCha8Rng + StandardNormal sampling is abstracted
   by a stream gauss : seed -> draw index -> value: the rng is seeded from
   the u64 seed alone (ChaCha8Rng::seed_from_u64) and every sample advances
   it by one draw, so the n-th draw depends only on (seed, n). -/

/-- FlowMatchPingPongScheduler state; draws counts the samples taken from
the seeded rng so far. -/
structure PingPongScheduler where
  numSteps : Nat
  omega : ℚ
  sigmas : List ℚ
  timesteps : List ℚ
  currentStep : Nat
  seed : Nat
  draws : Nat
deriving DecidableEq

/-- PingPongScheduler::new. -/
def PingPongScheduler.new (numSteps : Nat) (shift omega : ℚ) (seed : Nat) :
    PingPongScheduler :=
  { numSteps := numSteps, omega := omega,
    sigmas := scheduleSigmas numSteps shift,
    timesteps := scheduleTimesteps numSteps shift,
    currentStep := 0, seed := seed, draws := 0 }

/-- generate_noise_like: one Gaussian draw per element of the flattened
latent, in order. -/
def generateNoiseLike (gauss : Nat → Nat → ℚ) (seed draws size : Nat) :
    List ℚ :=
  (List.range size).map fun j : Nat => gauss seed (draws + j)

/-- Scheduler::sigma. -/
def PingPongScheduler.sigma (s : PingPongScheduler) : ℚ :=
  s.sigmas.getD s.currentStep 0

/-- PingPongScheduler::next_sigma. -/
def PingPongScheduler.nextSigma (s : PingPongScheduler) : ℚ :=
  s.sigmas.getD (s.currentStep + 1) 0

/-- Scheduler::timestep. -/
def PingPongScheduler.timestep (s : PingPongScheduler) : ℚ :=
  s.timesteps.getD s.currentStep 0

/-- Scheduler::is_done. -/
def PingPongScheduler.isDone (s : PingPongScheduler) : Bool :=
  s.numSteps ≤ s.currentStep

/-- PingPongScheduler::step: denoised = latent - sigma * model_output; draw
fresh noise; return (1 - sigma_next) * denoised + sigma_next * noise and
advance the step and the rng. -/
def PingPongScheduler.step (gauss : Nat → Nat → ℚ) (s : PingPongScheduler)
    (latent modelOutput : List ℚ) : List ℚ × PingPongScheduler :=
  let sigma := s.sigma
  let sigmaNext := s.nextSigma
  let denoised := List.zipWith (fun l m => l - m * sigma) latent modelOutput
  let noise := generateNoiseLike gauss s.seed s.draws latent.length
  let oneMinusSigmaNext := 1 - sigmaNext
  let prevSample := List.zipWith
    (fun d n => d * oneMinusSigmaNext + n * sigmaNext) denoised noise
  (prevSample,
    { s with currentStep := s.currentStep + 1,
             draws := s.draws + latent.length })

/-- Drive the scheduler over a sequence of (latent, model_output) inputs,
collecting the output latents. -/
def runPingPong (gauss : Nat → Nat → ℚ) :
    PingPongScheduler → List (List ℚ × List ℚ) → List (List ℚ)
  | _, [] => []
  | s, (l, m) :: rest =>
    let r := PingPongScheduler.step gauss s l m
    r.1 :: runPingPong gauss r.2 rest

/-- C8: two PingPong schedulers constructed with the same (num_steps,
shift, omega, seed) and stepped on identical input sequences produce
identical output latents at every step; each step returns
(1 - sigma_next) * (latent - sigma * model_output) + sigma_next * noise
where the noise draws depend only on the seed and the number of prior
draws. -/
theorem c8_pingpong_determinism (gauss : Nat → Nat → ℚ)
    (numSteps : Nat) (shift omega : ℚ) (seed : Nat)
    (s1 s2 : PingPongScheduler)
    (h1 : s1 = PingPongScheduler.new numSteps shift omega seed)
    (h2 : s2 = PingPongScheduler.new numSteps shift omega seed)
    (inputs : List (List ℚ × List ℚ)) :
    runPingPong gauss s1 inputs = runPingPong gauss s2 inputs
    ∧ (∀ (s : PingPongScheduler) (latent modelOutput : List ℚ),
        (PingPongScheduler.step gauss s latent modelOutput).1 =
          List.zipWith (fun d n => d * (1 - s.nextSigma) + n * s.nextSigma)
            (List.zipWith (fun l m => l - m * s.sigma) latent modelOutput)
            (generateNoiseLike gauss s.seed s.draws latent.length)
        ∧ (PingPongScheduler.step gauss s latent modelOutput).2.draws =
            s.draws + latent.length
        ∧ (PingPongScheduler.step gauss s latent modelOutput).2.seed = s.seed)
    ∧ (∀ (sa sb : PingPongScheduler) (size : Nat),
        sa.seed = sb.seed → sa.draws = sb.draws →
        generateNoiseLike gauss sa.seed sa.draws size =
          generateNoiseLike gauss sb.seed sb.draws size) := by
  refine ⟨by rw [h1, h2], fun s latent modelOutput => ⟨rfl, rfl, rfl⟩, ?_⟩
  intro sa sb size hseed hdraws
  rw [hseed, hdraws]

/-- A concrete Gaussian stream for the determinism witness. -/
def c8Gauss : Nat → Nat → ℚ := fun a b => (a : ℚ) + (b : ℚ)

/-- Concrete step inputs for the determinism witness. -/
def c8Inputs : List (List ℚ × List ℚ) :=
  [([1, 2], [1, 1]), ([0, 1], [2, 2])]

/-- Witness for c8_pingpong_determinism at num_steps 2, shift 3, omega 10,
seed 42 on two concrete steps. -/
theorem c8_pingpong_determinism_witness :
    (PingPongScheduler.new 2 3 10 42 = PingPongScheduler.new 2 3 10 42) ∧
    runPingPong c8Gauss (PingPongScheduler.new 2 3 10 42) c8Inputs =
      runPingPong c8Gauss (PingPongScheduler.new 2 3 10 42) c8Inputs :=
  ⟨rfl,
    (c8_pingpong_determinism c8Gauss 2 3 10 42
      (PingPongScheduler.new 2 3 10 42) (PingPongScheduler.new 2 3 10 42)
      rfl rfl c8Inputs).1⟩

/- ## JSON-RPC generate parameters, validation and the generate handler
   (src/daemon/src/rpc/types.rs, src/daemon/src/rpc/methods.rs)

   Numeric interpolation in human-readable detail strings uses toString;
   f32 guidance scales are exact rationals here.  Rust quotes some names in
   detail text with apostrophes; the embedding renders them unquoted.
   String::len counts UTF-8 bytes, embedded as strByteLen. -/

/-- RPC request priority. -/
inductive Priority where
  | Normal : Priority
  | High : Priority
deriving DecidableEq

/-- GenerateParams from rpc/types.rs. -/
structure GenerateParams where
  prompt : String
  durationSec : Nat
  seed : Option Nat
  priority : Priority
  backend : Option String
  inferenceSteps : Option Nat
  scheduler : Option String
  guidanceScale : Option ℚ
deriving DecidableEq

/-- Extended error data with the stable symbolic code. -/
structure JsonRpcErrorData where
  errorCode : String
  details : Option String
deriving DecidableEq

/-- A JSON-RPC error object. -/
structure JsonRpcError where
  code : Int
  message : String
  data : Option JsonRpcErrorData
deriving DecidableEq

/-- JsonRpcError::invalid_prompt (-32006). -/
def JsonRpcError.invalidPrompt (reason : String) : JsonRpcError :=
  ⟨-32006, "Invalid prompt", some ⟨"INVALID_PROMPT", some reason⟩⟩

/-- JsonRpcError::invalid_duration_for_backend (-32005). -/
def JsonRpcError.invalidDurationForBackend (duration : Nat)
    (backend : Backend) : JsonRpcError :=
  ⟨-32005, "Invalid duration",
    some ⟨"INVALID_DURATION",
      some ("Duration " ++ toString duration ++
        " is outside valid range of " ++ toString backend.minDurationSec ++
        "-" ++ toString backend.maxDurationSec ++ " seconds for " ++
        backend.asStr ++ " backend")⟩⟩

/-- JsonRpcError::invalid_inference_steps (-32009). -/
def JsonRpcError.invalidInferenceSteps (steps : Nat) : JsonRpcError :=
  ⟨-32009, "Invalid inference steps",
    some ⟨"INVALID_INFERENCE_STEPS",
      some ("Inference steps " ++ toString steps ++
        " is outside valid range of 1-200")⟩⟩

/-- JsonRpcError::invalid_guidance_scale (-32010). -/
def JsonRpcError.invalidGuidanceScale (scale : ℚ) : JsonRpcError :=
  ⟨-32010, "Invalid guidance scale",
    some ⟨"INVALID_GUIDANCE_SCALE",
      some ("Guidance scale " ++ toString scale ++
        " is outside valid range of 1.0-30.0")⟩⟩

/-- JsonRpcError::invalid_scheduler (-32011). -/
def JsonRpcError.invalidScheduler (scheduler : String) : JsonRpcError :=
  ⟨-32011, "Invalid scheduler",
    some ⟨"INVALID_SCHEDULER",
      some ("Unknown scheduler: " ++ scheduler ++
        ". Valid options: euler, heun, pingpong")⟩⟩

/-- JsonRpcError::invalid_backend (-32007). -/
def JsonRpcError.invalidBackend (backend : String) : JsonRpcError :=
  ⟨-32007, "Invalid backend",
    some ⟨"INVALID_BACKEND",
      some ("Unknown backend: " ++ backend ++
        ". Valid options: musicgen, ace_step")⟩⟩

/-- JsonRpcError::queue_full (-32004). -/
def JsonRpcError.queueFull (currentSize : Nat) : JsonRpcError :=
  ⟨-32004, "Queue full",
    some ⟨"QUEUE_FULL",
      some ("Maximum 10 pending requests. Current queue: " ++
        toString currentSize)⟩⟩

/-- JsonRpcError::model_inference_failed (-32003). -/
def JsonRpcError.modelInferenceFailed (details : String) : JsonRpcError :=
  ⟨-32003, "Model inference failed",
    some ⟨"MODEL_INFERENCE_FAILED", some details⟩⟩

/-- GenerateParams::resolve_backend. -/
def GenerateParams.resolveBackend (p : GenerateParams) (dflt : Backend) :
    Except JsonRpcError Backend :=
  match p.backend with
  | some b =>
    match Backend.parse b with
    | some bk => .ok bk
    | none => .error (JsonRpcError.invalidBackend b)
  | none => .ok dflt

/-- The scheduler-name check of GenerateParams::validate. -/
def GenerateParams.checkScheduler (p : GenerateParams) :
    Except JsonRpcError Unit :=
  match p.scheduler with
  | some sch =>
    if ["euler", "heun", "pingpong"].contains sch.toLower then .ok ()
    else .error (JsonRpcError.invalidScheduler sch)
  | none => .ok ()

/-- The guidance-scale check of GenerateParams::validate, then the
scheduler check. -/
def GenerateParams.checkGuidance (p : GenerateParams) :
    Except JsonRpcError Unit :=
  match p.guidanceScale with
  | some scale =>
    if scale < 1 ∨ 30 < scale then
      .error (JsonRpcError.invalidGuidanceScale scale)
    else p.checkScheduler
  | none => p.checkScheduler

/-- The inference-steps check of GenerateParams::validate, then the
remaining ACE-Step checks. -/
def GenerateParams.checkSteps (p : GenerateParams) :
    Except JsonRpcError Unit :=
  match p.inferenceSteps with
  | some steps =>
    if steps < 1 ∨ 200 < steps then
      .error (JsonRpcError.invalidInferenceSteps steps)
    else p.checkGuidance
  | none => p.checkGuidance

/-- GenerateParams::validate: prompt byte-length 1..=1000, duration within
the backend bounds, and for the ACE-Step backend the supplied diffusion
hyperparameters. -/
def GenerateParams.validate (p : GenerateParams) (backend : Backend) :
    Except JsonRpcError Unit :=
  if strByteLen p.prompt = 0 then
    .error (JsonRpcError.invalidPrompt "Prompt cannot be empty")
  else if 1000 < strByteLen p.prompt then
    .error (JsonRpcError.invalidPrompt
      ("Prompt too long: " ++ toString (strByteLen p.prompt) ++
        " characters (max 1000)"))
  else if p.durationSec < backend.minDurationSec ∨
      backend.maxDurationSec < p.durationSec then
    .error (JsonRpcError.invalidDurationForBackend p.durationSec backend)
  else if backend = Backend.AceStep then p.checkSteps
  else .ok ()

/- ### The generate handler slice (rpc/methods.rs)

   Embedded effects: the queue, the track cache with its logical clock,
   and the stream of emitted notifications.  Outside the slice, modelled
   as succeeding or abstracted: model download/load (filesystem and
   network), WAV writing, uuid generation (the jobId argument), random
   seeds (the randSeed argument), ONNX inference (the gen argument,
   a function of prompt, duration and seed), wall-clock generation time
   (the genTime argument), and the per-percent progress notifications. -/

/-- GenerationStatus from rpc/types.rs. -/
inductive GenerationStatus where
  | Queued : GenerationStatus
  | Generating : GenerationStatus
  | Complete : GenerationStatus
  | Error : GenerationStatus
deriving DecidableEq

/-- GenerateResult from rpc/types.rs. -/
structure GenerateResult where
  trackId : String
  status : GenerationStatus
  position : Nat
  seed : Nat
  backend : String
deriving DecidableEq

/-- GenerationCompleteParams from rpc/types.rs. -/
structure GenerationCompleteParams where
  trackId : String
  path : String
  durationSec : ℚ
  sampleRate : Nat
  prompt : String
  seed : Nat
  generationTimeSec : ℚ
  modelVersion : String
  backend : String
deriving DecidableEq

/-- GenerationErrorParams from rpc/types.rs. -/
structure GenerationErrorParams where
  trackId : String
  code : String
  message : String
deriving DecidableEq

/-- A notification sent by the handler (generation_complete or
generation_error; progress notifications are outside the slice). -/
inductive NotificationMsg where
  | complete : GenerationCompleteParams → NotificationMsg
  | error : GenerationErrorParams → NotificationMsg
deriving DecidableEq

/-- The handler-relevant slice of ServerState (rpc/server.rs): queue,
cache with logical clock, configured default backend, loaded model
version and cache directory. -/
structure ServerState where
  queue : GenerationQueue
  cache : TrackCache
  clock : Nat
  defaultBackend : Backend
  modelVersion : String
  cacheDir : String
deriving DecidableEq

/-- Result of one handle_generate call: the JSON-RPC response, the
post-state, and the notifications emitted while handling. -/
structure HandleOutcome where
  response : Except JsonRpcError GenerateResult
  state : ServerState
  notifications : List NotificationMsg

/-- GenerationJob::new from types/job.rs (slice of the fields embedded
here).  jobId abstracts the generated UUID and fallbackSeed the random
seed drawn when none is supplied; the track_id uses the 4-argument
compute_track_id of types/track.rs, without the backend. -/
def GenerationJob.new (jobId : String) (fallbackSeed : Nat) (prompt : String)
    (durationSec : Nat) (seed : Option Nat) (priority : JobPriority)
    (modelVersion : String) : GenerationJob :=
  let actualSeed := seed.getD fallbackSeed
  { jobId := jobId
    trackId := computeTrackIdNoBackend prompt actualSeed durationSec modelVersion
    prompt := prompt
    durationSec := durationSec
    seed := some actualSeed
    priority := priority
    status := .Pending
    queuePosition := none }

/-- process_next_job from rpc/methods.rs: drain the queue, generating
each popped job, caching the track and emitting a completion or error
notification; fuelled by the queue length (each step pops, so the queue
shrinks).  Track construction inlines the track fields written by the
handler, keyed by the job's track_id. -/
def processNextJob (gen : String → Nat → Nat → Except String (List ℚ))
    (genTime : ℚ) (backend : Backend) :
    Nat → ServerState → List NotificationMsg →
      ServerState × List NotificationMsg
  | 0, st, acc => (st, acc)
  | fuel + 1, st, acc =>
    match st.queue.popNext with
    | (none, _) => (st, acc)
    | (some job, q') =>
      let st1 : ServerState := { st with queue := q' }
      let seed := job.seed.getD 0
      let path := st1.cacheDir ++ "/" ++ job.trackId ++ ".wav"
      match gen job.prompt job.durationSec seed with
      | .ok samples =>
        let actualDuration : ℚ := (samples.length : ℚ) / (backend.sampleRate : ℚ)
        let track : Track := ⟨job.trackId, path, job.prompt, actualDuration,
          backend.sampleRate, seed, st1.modelVersion, backend, genTime⟩
        let st2 : ServerState :=
          { st1 with cache := st1.cache.put track st1.clock, clock := st1.clock + 1 }
        processNextJob gen genTime backend fuel st2
          (acc ++ [NotificationMsg.complete ⟨job.trackId, path, actualDuration,
            backend.sampleRate, job.prompt, seed, genTime, st1.modelVersion,
            backend.asStr⟩])
      | .error e =>
        processNextJob gen genTime backend fuel st1
          (acc ++ [NotificationMsg.error ⟨job.trackId, "MODEL_INFERENCE_FAILED", e⟩])

/-- handle_generate from rpc/methods.rs: resolve the backend, validate,
reject when the queue is full, resolve the seed, compute the track_id
(5-argument compute_track_id, with the backend), serve a cache hit
immediately (generation_time_sec 0), otherwise enqueue; a job landing at
position 0 is popped and generated at once, then the queue is drained. -/
def handleGenerate (p : GenerateParams) (st : ServerState) (randSeed : Nat)
    (jobId : String) (gen : String → Nat → Nat → Except String (List ℚ))
    (genTime : ℚ) : HandleOutcome :=
  match p.resolveBackend st.defaultBackend with
  | .error e => ⟨.error e, st, []⟩
  | .ok backend =>
    match p.validate backend with
    | .error e => ⟨.error e, st, []⟩
    | .ok _ =>
      if st.queue.isFull then
        ⟨.error (JsonRpcError.queueFull st.queue.jobs.length), st, []⟩
      else
        let seed := p.seed.getD randSeed
        let trackId := computeTrackId backend p.prompt seed p.durationSec st.modelVersion
        match st.cache.get trackId st.clock with
        | (some track, cache') =>
          ⟨.ok ⟨track.trackId, .Complete, 0, seed, backend.asStr⟩,
            { st with cache := cache', clock := st.clock + 1 },
            [NotificationMsg.complete ⟨track.trackId, track.path,
              track.durationSec, track.sampleRate, track.prompt, track.seed,
              0, track.modelVersion, track.backend.asStr⟩]⟩
        | (none, _) =>
          let jobPriority := match p.priority with
            | Priority.High => JobPriority.High
            | Priority.Normal => JobPriority.Normal
          let job := GenerationJob.new jobId randSeed p.prompt p.durationSec
            (some seed) jobPriority st.modelVersion
          match st.queue.add job with
          | .error e => ⟨.error (JsonRpcError.queueFull e.currentSize), st, []⟩
          | .ok (q1, position) =>
            if position = 0 then
              let st1 : ServerState := { st with queue := (q1.popNext).2 }
              let result : GenerateResult :=
                ⟨trackId, .Generating, 0, seed, backend.asStr⟩
              match gen p.prompt p.durationSec seed with
              | .ok samples =>
                let actualDuration : ℚ :=
                  (samples.length : ℚ) / (backend.sampleRate : ℚ)
                let path := st1.cacheDir ++ "/" ++ trackId ++ ".wav"
                let track : Track := ⟨trackId, path, p.prompt, actualDuration,
                  backend.sampleRate, seed, st1.modelVersion, backend, genTime⟩
                let st2 : ServerState := { st1 with cache := st1.cache.put track st1.clock, clock := st1.clock + 1 }
                let res := processNextJob gen genTime backend
                  st2.queue.jobs.length st2
                  [NotificationMsg.complete ⟨trackId, path, actualDuration,
                    backend.sampleRate, p.prompt, seed, genTime,
                    st1.modelVersion, backend.asStr⟩]
                ⟨.ok result, res.1, res.2⟩
              | .error e =>
                let res := processNextJob gen genTime backend
                  st1.queue.jobs.length st1
                  [NotificationMsg.error ⟨trackId, "MODEL_INFERENCE_FAILED", e⟩]
                ⟨.error (JsonRpcError.modelInferenceFailed e), res.1, res.2⟩
            else
              ⟨.ok ⟨trackId, .Queued, position, seed, backend.asStr⟩,
                { st with queue := q1 }, []⟩

/- ### Validation characterization (claim C9) -/

/-- Prompt byte-length within 1..=1000. -/
def promptLenOk (p : GenerateParams) : Prop :=
  1 ≤ strByteLen p.prompt ∧ strByteLen p.prompt ≤ 1000

/-- Duration within the backend bounds. -/
def durationOk (p : GenerateParams) (backend : Backend) : Prop :=
  backend.minDurationSec ≤ p.durationSec ∧ p.durationSec ≤ backend.maxDurationSec

/-- Any supplied inference_steps lies within 1..=200. -/
def stepsOk (p : GenerateParams) : Prop :=
  ∀ n, p.inferenceSteps = some n → 1 ≤ n ∧ n ≤ 200

/-- Any supplied guidance_scale lies within 1..=30. -/
def scaleOk (p : GenerateParams) : Prop :=
  ∀ g, p.guidanceScale = some g → 1 ≤ g ∧ g ≤ 30

/-- Any supplied scheduler lower-cases to one of the three names. -/
def schedOk (p : GenerateParams) : Prop :=
  ∀ s, p.scheduler = some s →
    s.toLower = "euler" ∨ s.toLower = "heun" ∨ s.toLower = "pingpong"

/-- Numeric code of an error result. -/
def errCode : Except JsonRpcError Unit → Option Int
  | .error e => some e.code
  | .ok _ => none

/-- Stable symbolic code of an error result. -/
def errName : Except JsonRpcError Unit → Option String
  | .error e => e.data.map (fun d => d.errorCode)
  | .ok _ => none

theorem checkScheduler_eq_ok (p : GenerateParams) :
    p.checkScheduler = .ok () ↔ schedOk p := by
  cases hs : p.scheduler with
  | none =>
    simp only [GenerateParams.checkScheduler, hs]
    constructor
    · intro _ s' hs'
      rw [hs] at hs'
      cases hs'
    · intro _
      trivial
  | some s =>
    by_cases hc : (["euler", "heun", "pingpong"].contains s.toLower) = true
    · simp only [GenerateParams.checkScheduler, hs]
      rw [if_pos hc]
      constructor
      · intro _ s' hs'
        rw [hs] at hs'
        injection hs' with h
        subst h
        simp at hc
        tauto
      · intro _
        rfl
    · simp only [GenerateParams.checkScheduler, hs]
      rw [if_neg hc]
      constructor
      · intro h
        exact absurd h (by simp)
      · intro h
        have := h s hs
        simp at hc
        tauto

theorem checkScheduler_err (p : GenerateParams) (h : ¬ schedOk p) :
    ∃ s, p.checkScheduler = .error (JsonRpcError.invalidScheduler s) := by
  unfold schedOk at h
  push_neg at h
  obtain ⟨s, hs, hbad⟩ := h
  have hc : ¬ ((["euler", "heun", "pingpong"].contains s.toLower) = true) := by
    intro hc
    simp at hc
    tauto
  refine ⟨s, ?_⟩
  simp only [GenerateParams.checkScheduler, hs]
  rw [if_neg hc]

theorem checkGuidance_eq_ok (p : GenerateParams) :
    p.checkGuidance = .ok () ↔ scaleOk p ∧ schedOk p := by
  cases hg : p.guidanceScale with
  | none =>
    simp only [GenerateParams.checkGuidance, hg]
    rw [checkScheduler_eq_ok]
    have hsc : scaleOk p := by
      intro g hg'
      rw [hg] at hg'
      cases hg'
    simp [hsc]
  | some g =>
    by_cases hb : g < 1 ∨ 30 < g
    · simp only [GenerateParams.checkGuidance, hg]
      rw [if_pos hb]
      constructor
      · intro h
        exact absurd h (by simp)
      · rintro ⟨h1, _⟩
        have := h1 g hg
        rcases hb with hb | hb
        · exact absurd this (by rintro ⟨c1, _⟩; linarith)
        · exact absurd this (by rintro ⟨_, c2⟩; linarith)
    · simp only [GenerateParams.checkGuidance, hg]
      rw [if_neg hb, checkScheduler_eq_ok]
      push_neg at hb
      constructor
      · intro h
        refine ⟨?_, h⟩
        intro g' hg'
        rw [hg] at hg'
        injection hg' with h'
        subst h'
        exact ⟨hb.1, hb.2⟩
      · rintro ⟨_, h⟩
        exact h

theorem checkGuidance_pass (p : GenerateParams) (h : scaleOk p) :
    p.checkGuidance = p.checkScheduler := by
  cases hg : p.guidanceScale with
  | none => simp only [GenerateParams.checkGuidance, hg]
  | some g =>
    have hgg := h g hg
    simp only [GenerateParams.checkGuidance, hg]
    rw [if_neg (by push_neg; exact ⟨hgg.1, hgg.2⟩)]

theorem checkGuidance_err (p : GenerateParams) (h : ¬ scaleOk p) :
    ∃ g, p.checkGuidance = .error (JsonRpcError.invalidGuidanceScale g) := by
  unfold scaleOk at h
  push_neg at h
  obtain ⟨g, hg, hbad⟩ := h
  refine ⟨g, ?_⟩
  simp only [GenerateParams.checkGuidance, hg]
  rw [if_pos ?_]
  by_contra hc
  push_neg at hc
  exact absurd (hbad hc.1) (not_lt.mpr hc.2)

theorem checkSteps_eq_ok (p : GenerateParams) :
    p.checkSteps = .ok () ↔ stepsOk p ∧ scaleOk p ∧ schedOk p := by
  cases hs : p.inferenceSteps with
  | none =>
    simp only [GenerateParams.checkSteps, hs]
    rw [checkGuidance_eq_ok]
    have hst : stepsOk p := by
      intro n hn
      rw [hs] at hn
      cases hn
    simp [hst]
  | some n =>
    by_cases hb : n < 1 ∨ 200 < n
    · simp only [GenerateParams.checkSteps, hs]
      rw [if_pos hb]
      constructor
      · intro h
        exact absurd h (by simp)
      · rintro ⟨h1, _⟩
        have := h1 n hs
        exact absurd this (by omega)
    · simp only [GenerateParams.checkSteps, hs]
      rw [if_neg hb, checkGuidance_eq_ok]
      constructor
      · rintro ⟨h2, h3⟩
        refine ⟨?_, h2, h3⟩
        intro m hm
        rw [hs] at hm
        injection hm with h'
        omega
      · rintro ⟨_, h2, h3⟩
        exact ⟨h2, h3⟩

theorem checkSteps_pass (p : GenerateParams) (h : stepsOk p) :
    p.checkSteps = p.checkGuidance := by
  cases hs : p.inferenceSteps with
  | none => simp only [GenerateParams.checkSteps, hs]
  | some n =>
    have hn := h n hs
    simp only [GenerateParams.checkSteps, hs]
    rw [if_neg (by omega)]

theorem checkSteps_err (p : GenerateParams) (h : ¬ stepsOk p) :
    ∃ n, p.checkSteps = .error (JsonRpcError.invalidInferenceSteps n) := by
  unfold stepsOk at h
  push_neg at h
  obtain ⟨n, hn, hbad⟩ := h
  refine ⟨n, ?_⟩
  simp only [GenerateParams.checkSteps, hn]
  rw [if_pos (by omega)]

theorem validate_pass (p : GenerateParams) (backend : Backend)
    (h1 : promptLenOk p) (h2 : durationOk p backend) :
    p.validate backend =
      if backend = Backend.AceStep then p.checkSteps else .ok () := by
  obtain ⟨hp1, hp2⟩ := h1
  obtain ⟨hd1, hd2⟩ := h2
  unfold GenerateParams.validate
  rw [if_neg (by omega), if_neg (by omega), if_neg (by omega)]

theorem validate_eq_ok (p : GenerateParams) (backend : Backend) :
    p.validate backend = .ok () ↔
      promptLenOk p ∧ durationOk p backend ∧
        (backend = Backend.AceStep → stepsOk p ∧ scaleOk p ∧ schedOk p) := by
  unfold GenerateParams.validate
  split_ifs with h0 h1 h2 h3
  · constructor
    · intro h
      exact absurd h (by simp)
    · rintro ⟨⟨hp, _⟩, _⟩
      exact ((by omega : False)).elim
  · constructor
    · intro h
      exact absurd h (by simp)
    · rintro ⟨⟨_, hp⟩, _⟩
      exact ((by omega : False)).elim
  · constructor
    · intro h
      exact absurd h (by simp)
    · rintro ⟨_, ⟨hd1, hd2⟩, _⟩
      exact ((by omega : False)).elim
  · rw [checkSteps_eq_ok]
    constructor
    · intro h
      exact ⟨⟨by omega, by omega⟩, ⟨by omega, by omega⟩, fun _ => h⟩
    · rintro ⟨_, _, h⟩
      exact h h3
  · constructor
    · intro _
      exact ⟨⟨by omega, by omega⟩, ⟨by omega, by omega⟩, fun hb => absurd hb h3⟩
    · intro _
      rfl

/-- Prompt of 501 copies of a two-byte character: 501 characters, 1002
UTF-8 bytes. -/
def promptE : String := String.mk (List.replicate 501 'é')

set_option maxRecDepth 40000

/-- C9 (counterexample): the claim counts prompt length in characters, but
GenerateParams::validate uses String::len, which counts UTF-8 bytes: a
prompt of 501 two-byte characters is within 1..=1000 characters yet is
rejected as INVALID_PROMPT, because its 1002 bytes exceed 1000. -/
theorem c9_validate_counterexample :
    promptE.length = 501 ∧
    (GenerateParams.validate
        ⟨promptE, 30, none, Priority.Normal, none, none, none, none⟩
        Backend.MusicGen ≠ .ok ()) ∧
    errCode (GenerateParams.validate
        ⟨promptE, 30, none, Priority.Normal, none, none, none, none⟩
        Backend.MusicGen) = some (-32006) ∧
    errName (GenerateParams.validate
        ⟨promptE, 30, none, Priority.Normal, none, none, none, none⟩
        Backend.MusicGen) = some "INVALID_PROMPT" := by
  have hcode : errCode (GenerateParams.validate
      ⟨promptE, 30, none, Priority.Normal, none, none, none, none⟩
      Backend.MusicGen) = some (-32006) := by decide
  refine ⟨rfl, ?_, hcode, by decide⟩
  intro h
  rw [h] at hcode
  exact Option.noConfusion hcode

/-- C9 (amended): generate-parameter validation succeeds iff the prompt
has 1 to 1000 UTF-8 BYTES (String::len counts bytes, not characters),
duration_sec lies within the selected backend bounds, and, for the
ACE-Step backend, any supplied inference_steps lies within 1-200, any
supplied guidance_scale within 1-30 and any supplied scheduler is one of
the three names; each violation yields the matching numeric and stable
codes, and a backend-resolution or validation error makes the handler
return that error synchronously with the state unchanged and no
notifications emitted. -/
theorem c9_validate_contract (p : GenerateParams) (backend : Backend) :
    (p.validate backend = .ok () ↔
      promptLenOk p ∧ durationOk p backend ∧
        (backend = Backend.AceStep → stepsOk p ∧ scaleOk p ∧ schedOk p))
    ∧ (¬ promptLenOk p →
        errCode (p.validate backend) = some (-32006) ∧
        errName (p.validate backend) = some "INVALID_PROMPT")
    ∧ (promptLenOk p → ¬ durationOk p backend →
        errCode (p.validate backend) = some (-32005) ∧
        errName (p.validate backend) = some "INVALID_DURATION")
    ∧ (promptLenOk p → durationOk p backend → backend = Backend.AceStep →
        ¬ stepsOk p →
        errCode (p.validate backend) = some (-32009) ∧
        errName (p.validate backend) = some "INVALID_INFERENCE_STEPS")
    ∧ (promptLenOk p → durationOk p backend → backend = Backend.AceStep →
        stepsOk p → ¬ scaleOk p →
        errCode (p.validate backend) = some (-32010) ∧
        errName (p.validate backend) = some "INVALID_GUIDANCE_SCALE")
    ∧ (promptLenOk p → durationOk p backend → backend = Backend.AceStep →
        stepsOk p → scaleOk p → ¬ schedOk p →
        errCode (p.validate backend) = some (-32011) ∧
        errName (p.validate backend) = some "INVALID_SCHEDULER")
    ∧ (∀ st randSeed jobId gen genTime e,
        p.resolveBackend st.defaultBackend = .ok backend →
        p.validate backend = .error e →
        handleGenerate p st randSeed jobId gen genTime = ⟨.error e, st, []⟩)
    ∧ (∀ st randSeed jobId gen genTime b,
        p.resolveBackend st.defaultBackend = .error b →
        handleGenerate p st randSeed jobId gen genTime = ⟨.error b, st, []⟩) := by
  refine ⟨validate_eq_ok p backend, ?_, ?_, ?_, ?_, ?_, ?_, ?_⟩
  · intro h
    unfold promptLenOk at h
    by_cases h0 : strByteLen p.prompt = 0
    · unfold GenerateParams.validate
      rw [if_pos h0]
      exact ⟨rfl, rfl⟩
    · have h1 : 1000 < strByteLen p.prompt := by omega
      unfold GenerateParams.validate
      rw [if_neg h0, if_pos h1]
      exact ⟨rfl, rfl⟩
  · intro h1 h2
    obtain ⟨hp1, hp2⟩ := h1
    unfold durationOk at h2
    unfold GenerateParams.validate
    rw [if_neg (by omega), if_neg (by omega), if_pos (by omega)]
    exact ⟨rfl, rfl⟩
  · intro h1 h2 hb h4
    rw [validate_pass p backend h1 h2, if_pos hb]
    obtain ⟨n, hn⟩ := checkSteps_err p h4
    rw [hn]
    exact ⟨rfl, rfl⟩
  · intro h1 h2 hb h4 h5
    rw [validate_pass p backend h1 h2, if_pos hb, checkSteps_pass p h4]
    obtain ⟨g, hg⟩ := checkGuidance_err p h5
    rw [hg]
    exact ⟨rfl, rfl⟩
  · intro h1 h2 hb h4 h5 h6
    rw [validate_pass p backend h1 h2, if_pos hb, checkSteps_pass p h4,
      checkGuidance_pass p h5]
    obtain ⟨s, hs⟩ := checkScheduler_err p h6
    rw [hs]
    exact ⟨rfl, rfl⟩
  · intro st randSeed jobId gen genTime e hrb hve
    simp only [handleGenerate, hrb, hve]
  · intro st randSeed jobId gen genTime b hrb
    simp only [handleGenerate, hrb]

/-- C9 witness: the empty prompt is rejected with numeric code -32006 and
stable code INVALID_PROMPT. -/
theorem c9_validate_contract_witness :
    errCode (GenerateParams.validate
        ⟨"", 30, none, Priority.Normal, none, none, none, none⟩
        Backend.MusicGen) = some (-32006) ∧
    errName (GenerateParams.validate
        ⟨"", 30, none, Priority.Normal, none, none, none, none⟩
        Backend.MusicGen) = some "INVALID_PROMPT" :=
  (c9_validate_contract
    ⟨"", 30, none, Priority.Normal, none, none, none, none⟩
    Backend.MusicGen).2.1 (by unfold promptLenOk; decide)

/-- C10: when the computed track_id is in the cache, handle_generate
emits exactly one generation_complete notification, carrying the cached
track fields with generation_time_sec 0, and returns Ok with the cached
track_id, status complete, position 0 and the resolved seed; the queue is
unchanged (no job added), and only the cache access time and clock move. -/
theorem c10_cacheHit_completesImmediately
    (p : GenerateParams) (st : ServerState) (randSeed : Nat) (jobId : String)
    (gen : String → Nat → Nat → Except String (List ℚ)) (genTime : ℚ)
    (backend : Backend) (track : Track) (cache2 : TrackCache)
    (hb : p.resolveBackend st.defaultBackend = .ok backend)
    (hv : p.validate backend = .ok ())
    (hfull : st.queue.isFull = false)
    (hhit : st.cache.get
      (computeTrackId backend p.prompt (p.seed.getD randSeed) p.durationSec
        st.modelVersion) st.clock = (some track, cache2)) :
    (handleGenerate p st randSeed jobId gen genTime).response =
      .ok ⟨track.trackId, GenerationStatus.Complete, 0, p.seed.getD randSeed,
        backend.asStr⟩
    ∧ (handleGenerate p st randSeed jobId gen genTime).notifications =
      [NotificationMsg.complete ⟨track.trackId, track.path, track.durationSec,
        track.sampleRate, track.prompt, track.seed, 0, track.modelVersion,
        track.backend.asStr⟩]
    ∧ (handleGenerate p st randSeed jobId gen genTime).state =
      { st with cache := cache2, clock := st.clock + 1 }
    ∧ (handleGenerate p st randSeed jobId gen genTime).state.queue = st.queue := by
  have hred : handleGenerate p st randSeed jobId gen genTime =
      ⟨.ok ⟨track.trackId, GenerationStatus.Complete, 0, p.seed.getD randSeed,
          backend.asStr⟩,
        { st with cache := cache2, clock := st.clock + 1 },
        [NotificationMsg.complete ⟨track.trackId, track.path, track.durationSec,
          track.sampleRate, track.prompt, track.seed, 0, track.modelVersion,
          track.backend.asStr⟩]⟩ := by
    simp only [handleGenerate, hb, hv, hfull, Bool.false_eq_true, if_false, hhit]
  rw [hred]
  exact ⟨rfl, rfl, rfl, rfl⟩

/-- Parameters for the C10 witness request. -/
def c10Params : GenerateParams :=
  ⟨"lofi hip hop", 30, some 42, Priority.Normal, none, none, none, none⟩

/-- Track id the handler computes for the C10 witness request. -/
def c10Id : String :=
  computeTrackId Backend.MusicGen "lofi hip hop" 42 30 "musicgen-small-fp16-v1"

/-- Cached track for the C10 witness. -/
def c10Track : Track :=
  ⟨c10Id, "/cache/x.wav", "lofi hip hop", 30, 32000, 42,
    "musicgen-small-fp16-v1", Backend.MusicGen, 5⟩

/-- Server state for the C10 witness: empty queue, the track cached. -/
def c10State : ServerState :=
  ⟨GenerationQueue.new, ⟨[(c10Id, ⟨c10Track, 0⟩)], 100⟩, 1, Backend.MusicGen,
    "musicgen-small-fp16-v1", "/cache"⟩

/-- Cache after the C10 witness hit: access time refreshed to the clock. -/
def c10CacheAfter : TrackCache := ⟨[(c10Id, ⟨c10Track, 1⟩)], 100⟩

/-- C10 witness: on the concrete cached request the handler answers
complete at position 0 with the cached track_id, emits the one completion
notification with generation_time_sec 0, and leaves the queue empty. -/
theorem c10_cacheHit_witness :
    (handleGenerate c10Params c10State 7 "job-1" (fun _ _ _ => .ok []) 9).response =
      .ok ⟨c10Track.trackId, GenerationStatus.Complete, 0, 42, "musicgen"⟩
    ∧ (handleGenerate c10Params c10State 7 "job-1" (fun _ _ _ => .ok []) 9).notifications =
      [NotificationMsg.complete ⟨c10Track.trackId, c10Track.path,
        c10Track.durationSec, c10Track.sampleRate, c10Track.prompt,
        c10Track.seed, 0, c10Track.modelVersion, c10Track.backend.asStr⟩]
    ∧ (handleGenerate c10Params c10State 7 "job-1" (fun _ _ _ => .ok []) 9).state =
      { c10State with cache := c10CacheAfter, clock := 2 }
    ∧ (handleGenerate c10Params c10State 7 "job-1" (fun _ _ _ => .ok []) 9).state.queue =
      c10State.queue := by
  have h := c10_cacheHit_completesImmediately c10Params c10State 7 "job-1"
    (fun _ _ _ => .ok []) 9 Backend.MusicGen c10Track c10CacheAfter
    rfl rfl rfl (by decide)
  exact h

end LofiDaemon
